import Mathlib

/-!
# Verification of the Super-Admin hierarchical tree engine

Shallow embedding of the drag-and-drop tree engine from
`src/app/categories/page.tsx` (and its near-identical duplicates in
`src/app/supercontent/product-structure/page.tsx` and
`src/components/category-tree 2.tsx`), plus the history API route
`src/app/api/categories/history/route.ts`.

JavaScript strings become `String`, and the `parentId: string | undefined`
sentinel becomes `Option String`; JS truthiness of a parent reference
(`!f.parentId` is true for both `undefined` and `""`) is modelled by
`truthyId`.  A nested forest (`TreeItem[]` with `children` arrays) is the
type `TreeList`, a specialized list of `TreeItem` declared mutually with it
so that every function is structurally recursive and computable by the
kernel; flat lists are ordinary `List TreeItem`.  The imperative two-pass
`buildTree` (a `Map` of nodes whose `children` arrays are filled by later
pushes) is modelled by unfolding the final object graph from the root
entries; the unfolding is fuelled, and `flat.length` fuel is always enough
because every parent chain reachable from a root entry is acyclic and
visits distinct entries.
-/

/-- `metadata` bag of a tree node (`TreeItem.metadata` in the source). -/
structure Metadata where
  createdAt : Option String
  updatedAt : Option String
  deletedAt : Option String
  status : Option String
deriving DecidableEq

mutual
/-- Nested-form tree node (`interface TreeItem` in `categories/page.tsx`):
`id`, `name`, `parentId`, `children`, optional `metadata`.  The
product-structure `FieldItem` payload adds `type`/`required`; the engine
code is identical, so the category payload is used as the carrier. -/
inductive TreeItem : Type where
  | mk (id : String) (name : String) (parentId : Option String)
       (children : TreeList) (metadata : Option Metadata)
deriving DecidableEq

/-- A nested forest: the `TreeItem[]` arrays of the source (top-level
`items` and every `children` field). -/
inductive TreeList : Type where
  | nil : TreeList
  | cons (t : TreeItem) (ts : TreeList) : TreeList
deriving DecidableEq
end

namespace TreeItem

def id : TreeItem → String
  | mk i _ _ _ _ => i

def name : TreeItem → String
  | mk _ n _ _ _ => n

def parentId : TreeItem → Option String
  | mk _ _ p _ _ => p

def children : TreeItem → TreeList
  | mk _ _ _ cs _ => cs

def metadata : TreeItem → Option Metadata
  | mk _ _ _ _ m => m

/-- `{ ...item, parentId }` — replace the parent reference, keep the rest. -/
def setParent : TreeItem → Option String → TreeItem
  | mk i n _ cs m, p => mk i n p cs m

/-- `{ ...item, children }` — replace the children list, keep the rest. -/
def setChildren : TreeItem → TreeList → TreeItem
  | mk i n p _ m, cs => mk i n p cs m

/-- `{ ...item, name }` — replace the name, keep the rest. -/
def setName : TreeItem → String → TreeItem
  | mk i _ p cs m, n => mk i n p cs m

end TreeItem

namespace TreeList

/-- View a nested forest as an ordinary list of its top-level nodes. -/
def toList : TreeList → List TreeItem
  | nil => []
  | cons t ts => t :: toList ts

/-- Build a nested forest from an ordinary list of nodes. -/
def ofList : List TreeItem → TreeList
  | [] => nil
  | t :: ts => cons t (ofList ts)

/-- `items.length === 0` (JS `!list.length`). -/
def isNil : TreeList → Bool
  | nil => true
  | cons _ _ => false

/-- `items.find((x) => x.id === id)` on a top-level list. -/
def findById : TreeList → String → Option TreeItem
  | nil, _ => none
  | cons t ts, x => if t.id == x then some t else findById ts x

/-- Is some top-level node's id equal to `x`? -/
def anyId : TreeList → String → Bool
  | nil, _ => false
  | cons t ts, x => t.id == x || anyId ts x

end TreeList

/-- JS truthiness of a parent reference: `!f.parentId` is true exactly when
the field is `undefined` (here `none`) or the empty string. -/
def truthyId : Option String → Bool
  | none => false
  | some s => s != ""

/-- All node ids of a nested forest, in depth-first order. -/
def forestIds : TreeList → List String
  | TreeList.nil => []
  | TreeList.cons (TreeItem.mk i _ _ cs _) rest => i :: (forestIds cs ++ forestIds rest)

/-- Number of nodes of a nested forest. -/
def sizeF : TreeList → Nat
  | TreeList.nil => 0
  | TreeList.cons (TreeItem.mk _ _ _ cs _) rest => 1 + sizeF cs + sizeF rest

/-- Height of a nested forest (0 for the empty forest). -/
def heightF : TreeList → Nat
  | TreeList.nil => 0
  | TreeList.cons (TreeItem.mk _ _ _ cs _) rest => max (1 + heightF cs) (heightF rest)

/-- `flattenTree` (`categories/page.tsx` lines 452-460): depth-first
pre-order walk producing, for each node, a copy with `parentId` resolved to
the actual parent (the copy keeps the original `children` array, exactly as
the JS spread does). -/
def flattenTree : TreeList → Option String → List TreeItem
  | TreeList.nil, _ => []
  | TreeList.cons (TreeItem.mk i n _ cs m) rest, pid =>
      TreeItem.mk i n pid cs m :: (flattenTree cs (some i) ++ flattenTree rest pid)

/-- The flat copy of a node: `{ ...item, parentId }`. -/
def flatCopy (t : TreeItem) (pid : Option String) : TreeItem :=
  t.setParent pid

/-- `map.get(x)` for the id map built by `flattenedTree.forEach((item) =>
map.set(item.id, item))`: the last entry with a given id wins. -/
def lookupLast (flat : List TreeItem) (x : String) : Option TreeItem :=
  (flat.filter (fun f => f.id == x)).getLast?

/-- `flat.find((f) => f.id === x)` (used by `category-tree 2.tsx`). -/
def lookupFirst (flat : List TreeItem) (x : String) : Option TreeItem :=
  flat.find? (fun f => f.id == x)

/-- The entries that `buildTree`'s second pass pushes into the children of
the map node with id `x`: entries whose `parentId` is truthy and equals
`x`.  (`x` is always the id of some entry at the call sites, so the JS
`map.get(f.parentId)` lookup succeeds for exactly these entries.) -/
def childEntriesOf (flat : List TreeItem) (x : String) : List TreeItem :=
  flat.filter (fun f => truthyId f.parentId && f.parentId == some x)

/-- The map node for entry `g` (`map.get(g.id)`, data from the last entry
with that id; the `getD` default is never hit because `g ∈ flat`). -/
def mapNode (flat : List TreeItem) (g : TreeItem) : TreeItem :=
  (lookupLast flat g.id).getD g

/-- Unfolding of the object graph built by `buildTree`'s second pass,
starting at one map node: its final `children` array holds, in flat-list
order, the map nodes of all entries whose `parentId` names it.  `fuel`
bounds the unfolding depth; `flat.length` is always sufficient (see the
file header). -/
def buildNode (flat : List TreeItem) : Nat → TreeItem → TreeItem
  | 0, f => f.setChildren TreeList.nil
  | fuel + 1, f =>
      f.setChildren (TreeList.ofList ((childEntriesOf flat f.id).map
        (fun g => buildNode flat fuel (mapNode flat g))))

/-- `buildTree` (`categories/page.tsx` lines 462-479): pass 1 keys a fresh
childless copy of every entry by id; pass 2 pushes every entry either into
the root result list (falsy `parentId`) or into its parent's `children`
(silently skipping entries whose parent id is absent from the map). -/
def buildTree (flat : List TreeItem) : TreeList :=
  TreeList.ofList ((flat.filter (fun f => !truthyId f.parentId)).map
    (fun f => buildNode flat flat.length (mapNode flat f)))

/-- A nested forest whose stored `parentId` fields agree with the actual
nesting: every top-level node of `l` carries `pid`, recursively. -/
def linkedF : Option String → TreeList → Bool
  | _, TreeList.nil => true
  | pid, TreeList.cons (TreeItem.mk i _ p cs _) rest =>
      (p == pid) && linkedF (some i) cs && linkedF pid rest

/-- Canonical re-linking of a forest: rewrite every `parentId` to the
actual parent.  `buildTree ∘ flattenTree` reproduces exactly this. -/
def canonF : Option String → TreeList → TreeList
  | _, TreeList.nil => TreeList.nil
  | pid, TreeList.cons (TreeItem.mk i n _ cs m) rest =>
      TreeList.cons (TreeItem.mk i n pid (canonF (some i) cs) m) (canonF pid rest)

/-- Canonical re-linking of a single node occurring under parent `pid`. -/
def canonT (pid : Option String) : TreeItem → TreeItem
  | TreeItem.mk i n _ cs m => TreeItem.mk i n pid (canonF (some i) cs) m

/-- The queue pushes of one BFS round of `getDepth`: `(item.children,
depth + 1)` for every scanned node with a nonempty children array. -/
def enqueueChildren (d : Nat) : TreeList → List (TreeList × Nat)
  | TreeList.nil => []
  | TreeList.cons t ts =>
      if t.children.isNil then enqueueChildren d ts
      else (t.children, d + 1) :: enqueueChildren d ts

/-- `getDepth`'s BFS loop (`categories/page.tsx` lines 490-509).  The queue
holds `(items, depth)` pairs; one fuel unit is spent per queue entry
processed.  At most `1 + sizeF l` entries are ever enqueued (the initial
list plus one children list per node), so the fuel passed by `getDepth`
never runs out. -/
def getDepthAux (x : String) : Nat → List (TreeList × Nat) → Int
  | 0, _ => -1
  | _ + 1, [] => -1
  | fuel + 1, (cur, d) :: rest =>
      if cur.anyId x then (d : Int)
      else getDepthAux x fuel (rest ++ enqueueChildren d cur)

/-- `getDepth` (`categories/page.tsx` lines 490-509): breadth-first depth of
the node with id `x`, `-1` when absent. -/
def getDepth (l : TreeList) (x : String) : Int :=
  if l.isNil then -1 else getDepthAux x (sizeF l + 1) [(l, 0)]

/-- Inner `hasDescendant` of `isDescendant` (`categories/page.tsx` lines
517-524): does `tid` occur anywhere strictly below one of `children`? -/
def hasDesc (tid : String) : TreeList → Bool
  | TreeList.nil => false
  | TreeList.cons (TreeItem.mk i _ _ cs _) rest =>
      i == tid || hasDesc tid cs || hasDesc tid rest

/-- `isDescendant` (`categories/page.tsx` lines 512-528).  Note that the
source looks the dragged node up with `items.find` on the *top-level* list
only, so a nested source always yields `false`. -/
def isDescendant (items : TreeList) (sourceId targetId : String) : Bool :=
  match items.findById sourceId with
  | none => false
  | some s => hasDesc targetId s.children

/-- Thresholds and depth cap from `categories/page.tsx` lines 154-156 (the
product-structure copy uses `MAX_DEPTH = 3`, otherwise identical code). -/
def UNPARENT_THRESHOLD : ℚ := -20

def CHILD_THRESHOLD : ℚ := 20

def MAX_DEPTH : Int := 5

/-- The four drop intent kinds of `DragIntention.type`. -/
inductive MoveType : Type where
  | before
  | after
  | child
  | root
deriving DecidableEq

/-- `interface DragIntention { type; id }`. -/
structure DragIntention where
  type : MoveType
  id : String
deriving DecidableEq

/-- The `lastChildIndex` scan of the `"child"` case (`categories/page.tsx`
lines 801-805): first index whose entry has `parentId === tid` and whose
successor (if any) does not. -/
def lastChildIdxAux (tid : String) : List TreeItem → Nat → Option Nat
  | [], _ => none
  | [f], i => if f.parentId == some tid then some i else none
  | f :: g :: rest, i =>
      if f.parentId == some tid && g.parentId != some tid then some i
      else lastChildIdxAux tid (g :: rest) (i + 1)

def lastChildIdx (l : List TreeItem) (tid : String) : Option Nat :=
  lastChildIdxAux tid l 0

/-- Insertion index of the `"root"` case (`categories/page.tsx` lines
812-823): one past the last entry with falsy `parentId`, or `0` if none. -/
def rootInsertIdx (newFlat : List TreeItem) : Nat :=
  match (newFlat.filter (fun x => !truthyId x.parentId)).getLast? with
  | none => 0
  | some r => newFlat.findIdx (fun x => x.id == r.id) + 1

/-- `splice(i, 0, a)`: insert `a` at index `i` (append when `i` exceeds the
length, as the JS clamp does). -/
def spliceIn (l : List TreeItem) (i : Nat) (a : TreeItem) : List TreeItem :=
  l.take i ++ a :: l.drop i

/-- The `switch (type)` of `handleDragEnd` (`categories/page.tsx` lines
787-824): insertion index and new parent for each intent kind, given the
flat list with the source already removed. -/
def moveParams (newFlat : List TreeItem) (tgt : TreeItem) : MoveType → Nat × Option String
  | MoveType.before => (newFlat.findIdx (fun f => f.id == tgt.id), tgt.parentId)
  | MoveType.after => (newFlat.findIdx (fun f => f.id == tgt.id) + 1, tgt.parentId)
  | MoveType.child =>
      (match lastChildIdx newFlat tgt.id with
       | none => newFlat.findIdx (fun f => f.id == tgt.id) + 1
       | some k => k + 1,
       some tgt.id)
  | MoveType.root => (rootInsertIdx newFlat, none)

/-- `handleDragEnd` (`categories/page.tsx` lines 751-885), as a pure
function from the forest, the dragged id and the classified intent to the
next forest (the history side effect is not part of the tree result).  The
cycle/depth re-check runs only for `"child"` intents. -/
def handleDragEnd (items : TreeList) (activeId : String) (pos : DragIntention) :
    TreeList :=
  let flat := flattenTree items none
  match lookupLast flat activeId, lookupLast flat pos.id with
  | some src, some tgt =>
      if src.id = tgt.id then items
      else if pos.type = MoveType.child ∧
          (isDescendant items activeId tgt.id = true ∨ MAX_DEPTH - 1 ≤ getDepth items tgt.id) then
        items
      else
        let newFlat := flat.filter (fun f => f.id != src.id)
        let p := moveParams newFlat tgt pos.type
        buildTree (spliceIn newFlat p.1 (src.setParent p.2))
  | _, _ => items

/-- `handleDragOver` (`categories/page.tsx` lines 679-749; the
product-structure copy at lines 621-683 is identical): classify the drag
state into an intent.  Geometry is passed as exact rationals; a zero row
height is the JS falsy `!overRect.height` bail-out. -/
def handleDragOver (items : TreeList) (activeId overId : String)
    (offsetLeft pointerTop overTop overHeight : ℚ) : Option DragIntention :=
  if overId = activeId then none
  else
    let flat := flattenTree items none
    match lookupLast flat activeId, lookupLast flat overId with
    | some src, some tgt =>
        if isDescendant items activeId overId then none
        else
          let overDepth := getDepth items overId
          if overHeight = 0 then none
          else
            let offsetY := max 0 (min (pointerTop - overTop) overHeight)
            let relativeY := offsetY / overHeight
            if offsetLeft < UNPARENT_THRESHOLD ∧ truthyId src.parentId then
              if !truthyId tgt.parentId then
                if relativeY < 1/2 then some ⟨MoveType.before, overId⟩
                else some ⟨MoveType.after, overId⟩
              else some ⟨MoveType.root, overId⟩
            else if CHILD_THRESHOLD < offsetLeft ∧ overDepth < MAX_DEPTH - 1 then
              some ⟨MoveType.child, overId⟩
            else if relativeY < 1/2 then some ⟨MoveType.before, overId⟩
            else some ⟨MoveType.after, overId⟩
    | _, _ => none

/-- `getDepth` of `category-tree 2.tsx` (lines 352-364): depth-first search
with an accumulator instead of the BFS above. -/
def getDepthCT2 : TreeList → String → Nat → Int
  | TreeList.nil, _, _ => -1
  | TreeList.cons (TreeItem.mk i _ _ cs _) rest, x, d =>
      if i == x then (d : Int)
      else
        let cd := getDepthCT2 cs x (d + 1)
        if cd != -1 then cd else getDepthCT2 rest x d

/-- `handleDragOver` of `category-tree 2.tsx` (lines 397-446).  Differences
from the main classifier: lookups use `flat.find` (first match), the child
rule is checked *before* the unparent rule, the unparent rule always emits
`root` (`src.parentId !== null`, no root-target special case), and the
vertical offset is not clamped. -/
def handleDragOverCT2 (items : TreeList) (activeId overId : String)
    (offsetLeft pointerTop overTop overHeight : ℚ) : Option DragIntention :=
  let flat := flattenTree items none
  match lookupFirst flat activeId, lookupFirst flat overId with
  | some src, some tgt =>
      if src.id = tgt.id then none
      else if isDescendant items activeId overId then none
      else
        let overDepth := getDepthCT2 items overId 0
        let offsetY := pointerTop - overTop
        let halfHeight := overHeight / 2
        if CHILD_THRESHOLD < offsetLeft ∧ overDepth < MAX_DEPTH - 1 then
          some ⟨MoveType.child, overId⟩
        else if offsetLeft < UNPARENT_THRESHOLD ∧ src.parentId ≠ none then
          some ⟨MoveType.root, overId⟩
        else if offsetY < halfHeight then some ⟨MoveType.before, overId⟩
        else some ⟨MoveType.after, overId⟩
  | _, _ => none

/-- The top-level map of `onRename`: replace the name of the matching
top-level node, leave everything else untouched. -/
def renameTop (id newName : String) : TreeList → TreeList
  | TreeList.nil => TreeList.nil
  | TreeList.cons t ts =>
      TreeList.cons (if t.id == id then t.setName newName else t) (renameTop id newName ts)

/-- `onRename` (`categories/page.tsx` lines 1057-1097, tree update only):
look the id up in the *top-level* `items` list and, if found, map over the
top-level list replacing the matching node's name.  Nested nodes are never
found and never renamed; no `updatedAt` is stamped on the node. -/
def onRename (items : TreeList) (id newName : String) : TreeList :=
  match items.findById id with
  | none => items
  | some _ => renameTop id newName items

/-- `handleRename` (`supercontent/@categories/page.tsx` lines 961-1022,
state update only).  That page stores the categories as a *flat*
all-node array (its `TreeItem` has `parentId` but no `children` field),
so the `items.find` / `items.map` pair reaches nodes at every depth.  A
missing id returns early; the renamed node keeps every other field —
`{ ...item, name: newName }` stamps no `updatedAt` on the node (the
timestamp appears only in the separately built history entry). -/
def handleRename (items : List TreeItem) (id newName : String) : List TreeItem :=
  match items.find? (fun item => item.id == id) with
  | none => items
  | some _ => items.map (fun item => if item.id == id then item.setName newName else item)

/-- `getAllChildren` of `handleDelete` (`categories/page.tsx` lines
948-957): depth-first downward closure over the resolved `parentId`
relation of the flat list.  One fuel unit per nesting level;
`flat.length` fuel is always enough. -/
def collectDescIds (flat : List TreeItem) : Nat → String → List String
  | 0, _ => []
  | fuel + 1, pid =>
      (flat.filter (fun f => f.parentId == some pid)).flatMap
        (fun c => c.id :: collectDescIds flat fuel c.id)

/-- `handleDelete` (`categories/page.tsx` lines 941-1015, tree update
only): collect the id with its descendant closure, drop all of them from
the flat list, rebuild. -/
def handleDelete (items : TreeList) (x : String) : TreeList :=
  let flat := flattenTree items none
  match lookupLast flat x with
  | none => items
  | some _ =>
      let ids := x :: collectDescIds flat flat.length x
      buildTree (flat.filter (fun f => !(ids.contains f.id)))

/-- Structural removal of the subtree rooted at the node with id `x`
(reference definition used to state what `handleDelete` computes). -/
def removeSubtree : TreeList → String → TreeList
  | TreeList.nil, _ => TreeList.nil
  | TreeList.cons (TreeItem.mk i n p cs m) rest, x =>
      if i = x then removeSubtree rest x
      else TreeList.cons (TreeItem.mk i n p (removeSubtree cs x) m) (removeSubtree rest x)

/-- Ids of the subtree rooted at the node with id `x` (the node itself and
all of its structural descendants). -/
def subtreeIds : TreeList → String → List String
  | TreeList.nil, _ => []
  | TreeList.cons (TreeItem.mk i _ _ cs _) rest, x =>
      if i = x then (i :: forestIds cs) ++ subtreeIds rest x
      else subtreeIds cs x ++ subtreeIds rest x

/-- The tree-state update of the history route's `POST`
(`src/app/api/categories/history/route.ts` lines 22-37):
`[action, ...history].slice(0, 1000)`. -/
def postHistory {α : Type} (action : α) (history : List α) : List α :=
  (action :: history).take 1000

/-! ## Basic lemmas about the embedding -/

theorem TreeItem.id_mk (i n : String) (p : Option String) (cs : TreeList)
    (m : Option Metadata) : (TreeItem.mk i n p cs m).id = i := rfl

theorem TreeItem.name_mk (i n : String) (p : Option String) (cs : TreeList)
    (m : Option Metadata) : (TreeItem.mk i n p cs m).name = n := rfl

theorem TreeItem.parentId_mk (i n : String) (p : Option String) (cs : TreeList)
    (m : Option Metadata) : (TreeItem.mk i n p cs m).parentId = p := rfl

theorem TreeItem.children_mk (i n : String) (p : Option String) (cs : TreeList)
    (m : Option Metadata) : (TreeItem.mk i n p cs m).children = cs := rfl

theorem TreeItem.metadata_mk (i n : String) (p : Option String) (cs : TreeList)
    (m : Option Metadata) : (TreeItem.mk i n p cs m).metadata = m := rfl

theorem TreeItem.setParent_id (t : TreeItem) (p : Option String) :
    (t.setParent p).id = t.id := by
  cases t; rfl

theorem TreeItem.setParent_name (t : TreeItem) (p : Option String) :
    (t.setParent p).name = t.name := by
  cases t; rfl

theorem TreeItem.setParent_children (t : TreeItem) (p : Option String) :
    (t.setParent p).children = t.children := by
  cases t; rfl

theorem TreeItem.setParent_metadata (t : TreeItem) (p : Option String) :
    (t.setParent p).metadata = t.metadata := by
  cases t; rfl

theorem TreeItem.setParent_parentId (t : TreeItem) (p : Option String) :
    (t.setParent p).parentId = p := by
  cases t; rfl

theorem flatCopy_id (t : TreeItem) (pid : Option String) : (flatCopy t pid).id = t.id :=
  TreeItem.setParent_id t pid

theorem flatCopy_children (t : TreeItem) (pid : Option String) :
    (flatCopy t pid).children = t.children :=
  TreeItem.setParent_children t pid

theorem flatCopy_parentId (t : TreeItem) (pid : Option String) :
    (flatCopy t pid).parentId = pid :=
  TreeItem.setParent_parentId t pid

theorem TreeList.toList_ofList : ∀ (l : List TreeItem), (TreeList.ofList l).toList = l
  | [] => rfl
  | t :: ts => by simp [TreeList.ofList, TreeList.toList, TreeList.toList_ofList ts]

theorem TreeList.ofList_toList : ∀ (ts : TreeList), TreeList.ofList ts.toList = ts
  | TreeList.nil => rfl
  | TreeList.cons t ts => by
      simp [TreeList.ofList, TreeList.toList, TreeList.ofList_toList ts]

theorem TreeList.ofList_inj {l₁ l₂ : List TreeItem}
    (h : TreeList.ofList l₁ = TreeList.ofList l₂) : l₁ = l₂ := by
  have := congrArg TreeList.toList h
  simpa [TreeList.toList_ofList] using this

/-- The ids of a flat walk do not depend on the starting parent and are the
forest's ids. -/
theorem map_id_flatten : ∀ (l : TreeList) (pid : Option String),
    (flattenTree l pid).map TreeItem.id = forestIds l
  | TreeList.nil, _ => rfl
  | TreeList.cons (TreeItem.mk i n p cs m) rest, pid => by
      simp [flattenTree, forestIds, TreeItem.id, map_id_flatten cs (some i),
        map_id_flatten rest pid]

theorem mem_flatten_id {l : TreeList} {pid : Option String} {e : TreeItem}
    (h : e ∈ flattenTree l pid) : e.id ∈ forestIds l := by
  rw [← map_id_flatten l pid]
  exact List.mem_map_of_mem TreeItem.id h

/-- Every top-level node appears in the flat walk as its copy. -/
theorem mem_flatten_top : ∀ (cs : TreeList) (pid : Option String) (c : TreeItem),
    c ∈ cs.toList → flatCopy c pid ∈ flattenTree cs pid
  | TreeList.nil, _, _, h => by simp [TreeList.toList] at h
  | TreeList.cons (TreeItem.mk i n p cs' m) rest, pid, c, h => by
      rcases (by simpa [TreeList.toList] using h) with rfl | h'
      · simp [flattenTree, flatCopy, TreeItem.setParent]
      · simp only [flattenTree, List.mem_cons, List.mem_append]
        exact Or.inr (Or.inr (mem_flatten_top rest pid c h'))

/-- Every entry's children appear in the flat walk as copies pointing at the
entry. -/
theorem mem_flatten_children : ∀ (l : TreeList) (pid : Option String) (e : TreeItem),
    e ∈ flattenTree l pid → ∀ c ∈ e.children.toList, flatCopy c (some e.id) ∈ flattenTree l pid
  | TreeList.nil, _, _, h => by simp [flattenTree] at h
  | TreeList.cons (TreeItem.mk i n p cs m) rest, pid, e, h => by
      rcases (by simpa [flattenTree] using h) with rfl | h' | h'
      · intro c hc
        simp only [flattenTree, List.mem_cons, List.mem_append]
        exact Or.inr (Or.inl (mem_flatten_top cs (some i) c
          (by simpa [TreeItem.children, TreeItem.id] using hc)))
      · intro c hc
        simp only [flattenTree, List.mem_cons, List.mem_append]
        exact Or.inr (Or.inl (mem_flatten_children cs (some i) e h' c hc))
      · intro c hc
        simp only [flattenTree, List.mem_cons, List.mem_append]
        exact Or.inr (Or.inr (mem_flatten_children rest pid e h' c hc))

theorem truthyId_none : truthyId none = false := rfl

theorem truthyId_some (s : String) : truthyId (some s) = (s != "") := rfl

/-! ## Filter lemmas: which flat entries point at a given id -/

/-- Segments that do not contain `x` (and do not hang below `x`) contribute
no entry whose parent reference is `x`. -/
theorem filter_parent_none : ∀ (l : TreeList) (pid : Option String) (x : String),
    pid ≠ some x → x ∉ forestIds l →
    (flattenTree l pid).filter (fun f => truthyId f.parentId && f.parentId == some x) = []
  | TreeList.nil, _, _, _, _ => rfl
  | TreeList.cons (TreeItem.mk i n p cs m) rest, pid, x, hpid, hx => by
      have hix : x ≠ i := by
        intro h
        exact hx (by simp [forestIds, h])
      have hxcs : x ∉ forestIds cs := fun h => hx (by simp [forestIds, h])
      have hxrest : x ∉ forestIds rest := fun h => hx (by simp [forestIds, h])
      have hbeq : (pid == some x) = false := by
        simpa using hpid
      simp only [flattenTree, List.filter_cons, List.filter_append,
        TreeItem.parentId_mk, hbeq, Bool.and_false, Bool.false_eq_true, if_false]
      rw [filter_parent_none cs (some i) x (by simpa using fun h => hix h.symm) hxcs,
        filter_parent_none rest pid x hpid hxrest]
      rfl

/-- Walking the children of the node with id `x` (with `x` nonempty and not
reoccurring below), the entries pointing at `x` are exactly the copies of
those children, in order. -/
theorem filter_parent_top : ∀ (cs : TreeList) (x : String),
    x ≠ "" → x ∉ forestIds cs →
    (flattenTree cs (some x)).filter (fun f => truthyId f.parentId && f.parentId == some x)
      = cs.toList.map (fun c => flatCopy c (some x))
  | TreeList.nil, _, _, _ => rfl
  | TreeList.cons (TreeItem.mk i n p cs' m) rest, x, hx, hmem => by
      have hix : x ≠ i := by
        intro h
        exact hmem (by simp [forestIds, h])
      have hxcs : x ∉ forestIds cs' := fun h => hmem (by simp [forestIds, h])
      have hxrest : x ∉ forestIds rest := fun h => hmem (by simp [forestIds, h])
      have htr : truthyId (some x) = true := by
        simpa [truthyId] using hx
      simp only [flattenTree, List.filter_cons, List.filter_append,
        TreeItem.parentId_mk, htr, Bool.true_and, beq_self_eq_true, if_true]
      rw [filter_parent_none cs' (some i) x (by simpa using fun h => hix h.symm) hxcs,
        filter_parent_top rest x hx hxrest]
      simp [TreeList.toList, flatCopy, TreeItem.setParent]

/-- The central filter lemma: in a duplicate-free, empty-id-free forest
walk, the entries pointing at a member entry `e` are exactly the copies of
`e`'s children, in sibling order. -/
theorem filter_children_eq : ∀ (l : TreeList) (pid : Option String) (e : TreeItem),
    (forestIds l).Nodup → "" ∉ forestIds l →
    (∀ q ∈ forestIds l, pid ≠ some q) →
    e ∈ flattenTree l pid →
    (flattenTree l pid).filter (fun f => truthyId f.parentId && f.parentId == some e.id)
      = e.children.toList.map (fun c => flatCopy c (some e.id))
  | TreeList.nil, _, _, _, _, _, he => by simp [flattenTree] at he
  | TreeList.cons (TreeItem.mk i n p cs m) rest, pid, e, hnd, hemp, hpid, he => by
      have hids : forestIds (TreeList.cons (TreeItem.mk i n p cs m) rest)
          = i :: (forestIds cs ++ forestIds rest) := rfl
      rw [hids] at hnd hemp
      have hiA : i ∉ forestIds cs := fun h => (List.nodup_cons.mp hnd).1 (by simp [h])
      have hiB : i ∉ forestIds rest := fun h => (List.nodup_cons.mp hnd).1 (by simp [h])
      have hndA : (forestIds cs).Nodup := ((List.nodup_cons.mp hnd).2).of_append_left
      have hndB : (forestIds rest).Nodup := ((List.nodup_cons.mp hnd).2).of_append_right
      have hdisj : ∀ q, q ∈ forestIds cs → q ∈ forestIds rest → False := fun q h1 h2 =>
        (List.disjoint_of_nodup_append (List.nodup_cons.mp hnd).2) h1 h2
      have hie : i ≠ "" := fun h => hemp (by simp [h])
      have hempA : "" ∉ forestIds cs := fun h => hemp (by simp [h])
      have hempB : "" ∉ forestIds rest := fun h => hemp (by simp [h])
      have hpidA : ∀ q ∈ forestIds cs, (some i : Option String) ≠ some q := by
        intro q hq heq
        exact hiA (by rw [Option.some.inj heq]; exact hq)
      rcases (by simpa [flattenTree] using he) with rfl | h' | h'
      · -- `e` is the head node itself
        have hpidi : (pid == some i) = false := by
          simpa using hpid i (by simp [hids])
        simp only [flattenTree, List.filter_cons, List.filter_append, TreeItem.parentId_mk,
          TreeItem.id_mk, TreeItem.children_mk, hpidi, Bool.and_false, Bool.false_eq_true,
          if_false]
        rw [filter_parent_top cs i hie hiA,
          filter_parent_none rest pid i (by simpa using hpid i (by simp [hids])) hiB]
        simp
      · -- `e` lies in the subtree walk of the head's children
        have hxA : e.id ∈ forestIds cs := mem_flatten_id h'
        have hpide : (pid == some e.id) = false := by
          simpa using hpid e.id (by simp [hids, hxA])
        simp only [flattenTree, List.filter_cons, List.filter_append, TreeItem.parentId_mk,
          TreeItem.id_mk, hpide, Bool.and_false, Bool.false_eq_true, if_false]
        rw [filter_children_eq cs (some i) e hndA hempA hpidA h',
          filter_parent_none rest pid e.id
            (by simpa using hpid e.id (by simp [hids, hxA]))
            (fun h => hdisj e.id hxA h)]
        simp
      · -- `e` lies in the walk of the sibling rest
        have hxB : e.id ∈ forestIds rest := mem_flatten_id h'
        have hpide : (pid == some e.id) = false := by
          simpa using hpid e.id (by simp [hids, hxB])
        have hia : (some i : Option String) ≠ some e.id := by
          intro heq
          exact hiB (by rw [← Option.some.inj heq] at hxB; exact hxB)
        simp only [flattenTree, List.filter_cons, List.filter_append, TreeItem.parentId_mk,
          TreeItem.id_mk, hpide, Bool.and_false, Bool.false_eq_true, if_false]
        rw [filter_parent_none cs (some i) e.id hia (fun h => hdisj e.id h hxB),
          filter_children_eq rest pid e hndB hempB
            (fun q hq => hpid q (by simp [hids, hq])) h']
        simp

/-! ## Lookup and height lemmas -/

theorem filter_id_eq_self : ∀ (flat : List TreeItem),
    (flat.map TreeItem.id).Nodup → ∀ e ∈ flat,
    flat.filter (fun f => f.id == e.id) = [e]
  | [], _, _, he => by simp at he
  | h :: t, hnd, e, he => by
      have hh : h.id ∉ t.map TreeItem.id := (List.nodup_cons.mp (by simpa using hnd)).1
      have hndt : (t.map TreeItem.id).Nodup := (List.nodup_cons.mp (by simpa using hnd)).2
      rcases List.mem_cons.mp he with rfl | het
      · simp only [List.filter_cons, beq_self_eq_true, if_true]
        have : t.filter (fun f => f.id == e.id) = [] := by
          apply List.filter_eq_nil_iff.mpr
          intro a ha hcontra
          exact hh (by
            rw [show e.id = a.id from (beq_iff_eq.mp (by simpa using hcontra)).symm]
            exact List.mem_map_of_mem TreeItem.id ha)
        rw [this]
      · have hne : (h.id == e.id) = false := by
          apply beq_eq_false_iff_ne.mpr
          intro hcontra
          exact hh (hcontra ▸ List.mem_map_of_mem TreeItem.id het)
        simp only [List.filter_cons, hne, Bool.false_eq_true, if_false]
        exact filter_id_eq_self t hndt e het

theorem lookupLast_self {flat : List TreeItem} (hnd : (flat.map TreeItem.id).Nodup)
    {e : TreeItem} (he : e ∈ flat) : lookupLast flat e.id = some e := by
  rw [lookupLast, filter_id_eq_self flat hnd e he]
  rfl

theorem mapNode_self {flat : List TreeItem} (hnd : (flat.map TreeItem.id).Nodup)
    {e : TreeItem} (he : e ∈ flat) : mapNode flat e = e := by
  rw [mapNode, lookupLast_self hnd he]
  rfl

theorem heightF_eq_zero : ∀ {l : TreeList}, heightF l = 0 → l = TreeList.nil
  | TreeList.nil, _ => rfl
  | TreeList.cons (TreeItem.mk i n p cs m) rest, h => by
      exfalso
      have : max (1 + heightF cs) (heightF rest) = 0 := h
      omega

theorem mem_toList_height : ∀ (cs : TreeList) (c : TreeItem), c ∈ cs.toList →
    heightF c.children < heightF cs
  | TreeList.nil, c, h => by simp [TreeList.toList] at h
  | TreeList.cons (TreeItem.mk i n p cs' m) rest, c, h => by
      rcases (by simpa [TreeList.toList] using h) with rfl | h'
      · have : heightF (TreeItem.mk i n p cs' m).children = heightF cs' := by
          rw [TreeItem.children_mk]
        rw [this]
        have : heightF (TreeList.cons (TreeItem.mk i n p cs' m) rest)
            = max (1 + heightF cs') (heightF rest) := rfl
        omega
      · have h1 := mem_toList_height rest c h'
        have : heightF (TreeList.cons (TreeItem.mk i n p cs' m) rest)
            = max (1 + heightF cs') (heightF rest) := rfl
        omega

theorem height_le_flatten_len : ∀ (l : TreeList) (pid : Option String),
    heightF l ≤ (flattenTree l pid).length
  | TreeList.nil, _ => by simp [flattenTree, heightF]
  | TreeList.cons (TreeItem.mk i n p cs m) rest, pid => by
      have h1 := height_le_flatten_len cs (some i)
      have h2 := height_le_flatten_len rest pid
      have : heightF (TreeList.cons (TreeItem.mk i n p cs m) rest)
          = max (1 + heightF cs) (heightF rest) := rfl
      simp only [flattenTree, List.length_cons, List.length_append, this]
      omega

theorem mem_flatten_height : ∀ (l : TreeList) (pid : Option String) (e : TreeItem),
    e ∈ flattenTree l pid → heightF e.children < heightF l
  | TreeList.nil, _, _, h => by simp [flattenTree] at h
  | TreeList.cons (TreeItem.mk i n p cs m) rest, pid, e, h => by
      have hmx : heightF (TreeList.cons (TreeItem.mk i n p cs m) rest)
          = max (1 + heightF cs) (heightF rest) := rfl
      rcases (by simpa [flattenTree] using h) with rfl | h' | h'
      · have : heightF (TreeItem.mk i n pid cs m).children = heightF cs := by
          rw [TreeItem.children_mk]
        omega
      · have := mem_flatten_height cs (some i) e h'
        omega
      · have := mem_flatten_height rest pid e h'
        omega

theorem canonF_eq_map : ∀ (pid : Option String) (cs : TreeList),
    canonF pid cs = TreeList.ofList (cs.toList.map (canonT pid))
  | _, TreeList.nil => rfl
  | pid, TreeList.cons (TreeItem.mk i n p cs' m) rest => by
      simp only [canonF, TreeList.toList, List.map_cons, TreeList.ofList, canonT]
      rw [canonF_eq_map pid rest]

/-! ## The rebuild of a flat walk is the canonically re-linked forest -/

theorem buildNode_flatten (F : TreeList) (hnd : (forestIds F).Nodup)
    (hemp : "" ∉ forestIds F) :
    ∀ (fuel : Nat) (t : TreeItem) (pid : Option String),
      flatCopy t pid ∈ flattenTree F none → heightF t.children ≤ fuel →
      buildNode (flattenTree F none) fuel (flatCopy t pid) = canonT pid t
  | 0, t, pid, _, hht => by
      cases t with
      | mk i n p cs m =>
        have hz : heightF cs = 0 := by
          have : heightF (TreeItem.mk i n p cs m).children = heightF cs := by
            rw [TreeItem.children_mk]
          omega
        rw [heightF_eq_zero hz]
        rfl
  | fuel + 1, t, pid, hmem, hht => by
      cases t with
      | mk i n p cs m =>
        have hndmap : ((flattenTree F none).map TreeItem.id).Nodup := by
          rw [map_id_flatten]
          exact hnd
        have hcopy : flatCopy (TreeItem.mk i n p cs m) pid = TreeItem.mk i n pid cs m := rfl
        rw [hcopy] at hmem ⊢
        have hfc := filter_children_eq F none (TreeItem.mk i n pid cs m) hnd hemp
          (fun q _ => by simp) hmem
        rw [TreeItem.id_mk, TreeItem.children_mk] at hfc
        show (TreeItem.mk i n pid cs m).setChildren
            (TreeList.ofList ((childEntriesOf (flattenTree F none)
              (TreeItem.mk i n pid cs m).id).map
              (fun g => buildNode (flattenTree F none) fuel (mapNode (flattenTree F none) g))))
          = canonT pid (TreeItem.mk i n p cs m)
        rw [TreeItem.id_mk, childEntriesOf, hfc, List.map_map]
        have hmap : cs.toList.map
            ((fun g => buildNode (flattenTree F none) fuel (mapNode (flattenTree F none) g)) ∘
              (fun c => flatCopy c (some i)))
            = cs.toList.map (canonT (some i)) := by
          apply List.map_congr_left
          intro c hc
          have hcm : flatCopy c (some i) ∈ flattenTree F none := by
            have := mem_flatten_children F none (TreeItem.mk i n pid cs m) hmem c
              (by rw [TreeItem.children_mk]; exact hc)
            rwa [TreeItem.id_mk] at this
          have hcht : heightF c.children ≤ fuel := by
            have h1 := mem_toList_height cs c hc
            have h2 : heightF (TreeItem.mk i n p cs m).children = heightF cs := by
              rw [TreeItem.children_mk]
            omega
          simp only [Function.comp_apply]
          rw [mapNode_self hndmap hcm]
          exact buildNode_flatten F hnd hemp fuel c (some i) hcm hcht
        rw [hmap, ← canonF_eq_map]
        rfl

theorem no_roots_in_sub : ∀ (l : TreeList) (q : String), q ≠ "" → "" ∉ forestIds l →
    (flattenTree l (some q)).filter (fun f => !truthyId f.parentId) = []
  | TreeList.nil, _, _, _ => rfl
  | TreeList.cons (TreeItem.mk i n p cs m) rest, q, hq, hemp => by
      have hie : i ≠ "" := fun h => hemp (by simp [forestIds, h])
      have hempA : "" ∉ forestIds cs := fun h => hemp (by simp [forestIds, h])
      have hempB : "" ∉ forestIds rest := fun h => hemp (by simp [forestIds, h])
      have htr : truthyId (some q) = true := by simpa [truthyId] using hq
      simp only [flattenTree, List.filter_cons, List.filter_append, TreeItem.parentId_mk,
        htr, Bool.not_true, Bool.false_eq_true, if_false]
      rw [no_roots_in_sub cs i hie hempA, no_roots_in_sub rest q hq hempB]
      rfl

theorem roots_filter : ∀ (l : TreeList), "" ∉ forestIds l →
    (flattenTree l none).filter (fun f => !truthyId f.parentId)
      = l.toList.map (fun t => flatCopy t none)
  | TreeList.nil, _ => rfl
  | TreeList.cons (TreeItem.mk i n p cs m) rest, hemp => by
      have hie : i ≠ "" := fun h => hemp (by simp [forestIds, h])
      have hempA : "" ∉ forestIds cs := fun h => hemp (by simp [forestIds, h])
      have hempB : "" ∉ forestIds rest := fun h => hemp (by simp [forestIds, h])
      simp only [flattenTree, List.filter_cons, TreeItem.parentId_mk, truthyId_none,
        Bool.not_false, if_true, List.filter_append]
      rw [no_roots_in_sub cs i hie hempA, roots_filter rest hempB]
      simp [TreeList.toList, flatCopy, TreeItem.setParent]

/-- `buildTree ∘ flattenTree` is exactly the canonical re-linking. -/
theorem buildTree_flatten_eq_canon (F : TreeList) (hnd : (forestIds F).Nodup)
    (hemp : "" ∉ forestIds F) : buildTree (flattenTree F none) = canonF none F := by
  rw [buildTree, roots_filter F hemp, List.map_map, canonF_eq_map none F]
  congr 1
  apply List.map_congr_left
  intro t ht
  have hmem : flatCopy t none ∈ flattenTree F none := mem_flatten_top F none t ht
  have hndmap : ((flattenTree F none).map TreeItem.id).Nodup := by
    rw [map_id_flatten]
    exact hnd
  simp only [Function.comp_apply]
  rw [mapNode_self hndmap hmem]
  apply buildNode_flatten F hnd hemp
  · exact hmem
  · have h1 := mem_flatten_height F none (flatCopy t none) hmem
    have h2 := height_le_flatten_len F none
    rw [flatCopy_children] at h1
    omega

theorem canonF_eq_of_linked : ∀ (pid : Option String) (l : TreeList),
    linkedF pid l = true → canonF pid l = l
  | _, TreeList.nil, _ => rfl
  | pid, TreeList.cons (TreeItem.mk i n p cs m) rest, h => by
      simp only [linkedF, Bool.and_eq_true, beq_iff_eq] at h
      obtain ⟨⟨hp, hcs⟩, hrest⟩ := h
      simp only [canonF]
      rw [canonF_eq_of_linked (some i) cs hcs, canonF_eq_of_linked pid rest hrest, hp]

/-! ## C1: the round-trip law -/

/-- C1. Round-trip law: for every valid nested forest `F` — ids pairwise
distinct, every id distinct from the root sentinel (the empty string, which
JS truthiness conflates with "no parent"), and `parentId` fields agreeing
with the nesting — `buildTree (flattenTree F)` is structurally equal to
`F`: same ids, names, payload, parent/child relationships and sibling
order.  (Acyclicity is inherent in the nested representation.) -/
theorem roundtrip_flatten_build (F : TreeList)
    (hnodup : (forestIds F).Nodup) (hids : "" ∉ forestIds F)
    (hlinked : linkedF none F = true) :
    buildTree (flattenTree F none) = F := by
  rw [buildTree_flatten_eq_canon F hnodup hids, canonF_eq_of_linked none F hlinked]

def exC1 : TreeList := TreeList.ofList
  [TreeItem.mk "a" "Fruit" none (TreeList.ofList
      [TreeItem.mk "b" "Citrus" (some "a") (TreeList.ofList
        [TreeItem.mk "d" "Lemon" (some "b") TreeList.nil none]) none,
       TreeItem.mk "c" "Berry" (some "a") TreeList.nil none]) none,
   TreeItem.mk "e" "Dairy" none TreeList.nil none]

/-- Witness for C1 at a concrete two-tree, five-node forest. -/
theorem roundtrip_flatten_build_witness :
    ((forestIds exC1).Nodup ∧ "" ∉ forestIds exC1 ∧ linkedF none exC1 = true)
      ∧ buildTree (flattenTree exC1 none) = exC1 :=
  ⟨⟨by decide, by decide, by decide⟩,
    roundtrip_flatten_build exC1 (by decide) (by decide) (by decide)⟩

/-! ## C2: dangling parent references -/

/-- C2 counterexample: a flat node whose `parentId` names a missing id is
*not* rebuilt as a root — `buildTree` drops it entirely (second pass: the
`map.get(f.parentId)` lookup fails and the node is pushed nowhere). -/
theorem dangling_parent_dropped_cex :
    buildTree [TreeItem.mk "x" "X" (some "zz") TreeList.nil none] = TreeList.nil := by
  decide

/-- All ids of a rebuilt forest, as a list (`forestIds` of the output). -/
theorem forestIds_eq_flatMap_toList : ∀ (l : TreeList),
    forestIds l = l.toList.flatMap (fun t => t.id :: forestIds t.children)
  | TreeList.nil => rfl
  | TreeList.cons (TreeItem.mk i n p cs m) rest => by
      simp only [forestIds, TreeList.toList, List.flatMap_cons, TreeItem.id_mk,
        TreeItem.children_mk]
      rw [forestIds_eq_flatMap_toList rest]
      simp

/-- Ids appearing in one rebuilt node: the seed entry's id and,
recursively, ids of entries reachable through parent references. -/
theorem mem_forestIds_buildNode : ∀ (flat : List TreeItem)
    (hnd : (flat.map TreeItem.id).Nodup) (fuel : Nat) (d : TreeItem), d ∈ flat →
    ∀ y, y ∈ forestIds (TreeList.ofList [buildNode flat fuel d]) →
      y = d.id ∨ ∃ g ∈ flat, y ∈ forestIds (TreeList.ofList [buildNode flat (fuel - 1) g])
        ∧ truthyId g.parentId = true ∧ g.parentId = some d.id := by
  intro flat hnd fuel d hd y hy
  cases fuel with
  | zero =>
      left
      cases d with
      | mk i nm p cs m =>
        simpa [buildNode, TreeItem.setChildren, forestIds, TreeList.ofList,
          TreeItem.id_mk] using hy
  | succ fuel =>
      cases d with
      | mk i nm p cs m =>
        simp only [buildNode, TreeItem.setChildren, TreeItem.id_mk] at hy
        rw [forestIds_eq_flatMap_toList] at hy
        simp only [TreeList.toList_ofList, TreeList.toList, List.flatMap_cons,
          List.flatMap_nil, List.append_nil, TreeItem.id_mk, TreeItem.children_mk,
          List.mem_append, List.mem_cons] at hy
        rcases hy with rfl | hy
        · left
          rfl
        · rw [forestIds_eq_flatMap_toList, TreeList.toList_ofList] at hy
          rw [List.mem_flatMap] at hy
          obtain ⟨b, hb, hyb⟩ := hy
          rw [List.mem_map] at hb
          obtain ⟨g, hg, rfl⟩ := hb
          have hgflat : g ∈ flat := List.mem_of_mem_filter hg
          have hgp := List.of_mem_filter hg
          simp only [Bool.and_eq_true, beq_iff_eq] at hgp
          right
          refine ⟨g, hgflat, ?_, hgp.1, hgp.2⟩
          rw [mapNode_self hnd hgflat] at hyb
          simp only [Nat.add_sub_cancel]
          rw [forestIds_eq_flatMap_toList, TreeList.toList_ofList]
          simp only [List.flatMap_cons, List.flatMap_nil, List.append_nil]
          exact hyb

/-- No rebuilt node seeded from an entry other than `f` can contain
`f.id` when `f`'s parent reference names no entry of the flat list. -/
theorem not_mem_buildNode_of_dangling (flat : List TreeItem)
    (hnd : (flat.map TreeItem.id).Nodup) (f : TreeItem) (hf : f ∈ flat)
    (p : String) (hp : f.parentId = some p)
    (hdang : ∀ g ∈ flat, g.id ≠ p) :
    ∀ (fuel : Nat) (d : TreeItem), d ∈ flat → d ≠ f →
      f.id ∉ forestIds (TreeList.ofList [buildNode flat fuel d])
  | 0, d, hd, hdf => by
      intro hmem
      cases d with
      | mk i nm q cs m =>
        have : f.id = i := by
          simpa [buildNode, TreeItem.setChildren, TreeList.ofList, forestIds,
            TreeItem.id_mk] using hmem
        exact hdf (List.inj_on_of_nodup_map hnd hf hd
          (by rw [TreeItem.id_mk]; exact this)).symm
  | fuel + 1, d, hd, hdf => by
      intro hmem
      rcases mem_forestIds_buildNode flat hnd (fuel + 1) d hd f.id hmem with heq | hex
      · exact hdf (List.inj_on_of_nodup_map hnd hf hd heq).symm
      · obtain ⟨g, hg, hyg, htr, hgp⟩ := hex
        have hgf : g ≠ f := by
          intro rfl'
          subst rfl'
          rw [hp] at hgp
          exact hdang d hd (Option.some.inj hgp).symm
        simp only [Nat.add_sub_cancel] at hyg
        exact not_mem_buildNode_of_dangling flat hnd f hf p hp hdang fuel g hg hgf hyg

/-- C2 amended: in a flat list with pairwise-distinct ids, a node whose
(nonempty) `parentId` names an id carried by no entry is *dropped* by
`buildTree` — its id does not occur anywhere in the rebuilt forest,
instead of the node becoming a top-level root as the spec claims.
(A `parentId` equal to `""` is falsy in JS, so such a node *is* rebuilt as
a root; the counterexample therefore uses a nonempty missing id.) -/
theorem dangling_parent_dropped (flat : List TreeItem)
    (hnd : (flat.map TreeItem.id).Nodup) (f : TreeItem) (hf : f ∈ flat)
    (p : String) (hp : f.parentId = some p) (hpe : p ≠ "")
    (hdang : ∀ g ∈ flat, g.id ≠ p) :
    f.id ∉ forestIds (buildTree flat) := by
  intro hmem
  rw [buildTree, forestIds_eq_flatMap_toList, TreeList.toList_ofList,
    List.flatMap_map, List.mem_flatMap] at hmem
  obtain ⟨r, hr, hyr⟩ := hmem
  have hrflat : r ∈ flat := List.mem_of_mem_filter hr
  have hrroot : truthyId r.parentId = false := by
    have := List.of_mem_filter hr
    simpa using this
  have hrf : r ≠ f := by
    intro rfl'
    subst rfl'
    rw [hp, truthyId_some] at hrroot
    simp only [bne_eq_false_iff_eq] at hrroot
    exact hpe hrroot
  rw [mapNode_self hnd hrflat] at hyr
  apply not_mem_buildNode_of_dangling flat hnd f hf p hp hdang flat.length r hrflat hrf
  rw [forestIds_eq_flatMap_toList, TreeList.toList_ofList]
  simpa using hyr

def exC2 : List TreeItem :=
  [TreeItem.mk "a" "A" none TreeList.nil none,
   TreeItem.mk "x" "X" (some "zz") TreeList.nil none]

/-- Witness for the amended C2 at a concrete flat list. -/
theorem dangling_parent_dropped_witness :
    ((exC2.map TreeItem.id).Nodup ∧ (TreeItem.mk "x" "X" (some "zz") TreeList.nil none) ∈ exC2
      ∧ "zz" ≠ "" ∧ (∀ g ∈ exC2, g.id ≠ "zz"))
    ∧ (TreeItem.mk "x" "X" (some "zz") TreeList.nil none).id ∉ forestIds (buildTree exC2) :=
  ⟨⟨by decide, by decide, by decide, by decide⟩,
    dangling_parent_dropped exC2 (by decide)
      (TreeItem.mk "x" "X" (some "zz") TreeList.nil none) (by decide)
      "zz" (by decide) (by decide) (by decide)⟩

/-! ## C3: the depth bound is not preserved for moved subtrees -/

def exC3 : TreeList := TreeList.ofList
  [TreeItem.mk "r" "R" none (TreeList.ofList [TreeItem.mk "a" "A" (some "r")
      (TreeList.ofList [TreeItem.mk "b" "B" (some "a")
        (TreeList.ofList [TreeItem.mk "t" "T" (some "b") TreeList.nil none]) none]) none]) none,
   TreeItem.mk "s" "S" none (TreeList.ofList
      [TreeItem.mk "d" "D" (some "s") TreeList.nil none]) none]

/-- C3 failing input, evaluated.  In `exC3` every node has depth at most
`MAX_DEPTH - 1 = 4` ("t" sits at depth 3, "s" is a root with child "d").
Dropping "s" as a child of "t" passes the apply-time guard (it only checks
`getDepth(items, "t") >= MAX_DEPTH - 1`, i.e. the *target's* depth), yet in
the resulting forest the moved node's child "d" sits at depth
`5 > MAX_DEPTH - 1`: the accepted Move violates the depth bound for
descendants of the moved node. -/
theorem depth_bound_violated_eval :
    ((forestIds exC3).all (fun y => decide (getDepth exC3 y ≤ MAX_DEPTH - 1)) = true)
    ∧ MAX_DEPTH - 1 <
        getDepth (handleDragEnd exC3 "s" ⟨MoveType.child, "t"⟩) "d" := by
  constructor
  · decide
  · decide

/-! ## C4: a `child` drop does not always land as the last child -/

def exC4 : TreeList := TreeList.ofList
  [TreeItem.mk "t" "T" none (TreeList.ofList
      [TreeItem.mk "c1" "C1" (some "t") (TreeList.ofList
        [TreeItem.mk "g" "G" (some "c1") TreeList.nil none]) none,
       TreeItem.mk "c2" "C2" (some "t") TreeList.nil none]) none,
   TreeItem.mk "s" "S" none TreeList.nil none]

/-- C4 failing input, evaluated.  The anchor "t" has children
`[c1 (with its own child g), c2]`.  The `lastChildIndex` scan of the
`"child"` case assumes the anchor's children are contiguous in the flat
list: it stops at `c1` (whose flat successor `g` is not a direct child of
"t") and inserts the source right after it, so the rebuilt children list is
`[c1, s, c2]` — the source is *not* the anchor's last child, contradicting
the code's own "Place as last child" comment and the spec. -/
theorem child_insert_not_last_eval :
    (handleDragEnd exC4 "s" ⟨MoveType.child, "t"⟩).toList.map
        (fun t => (t.id, t.children.toList.map TreeItem.id)) = [("t", ["c1", "s", "c2"])]
    ∧ (["c1", "s", "c2"].getLast? ≠ some "s") := by
  constructor
  · decide
  · decide

/-! ## C10: the history log cap -/

/-- C10. Every `POST` to the category history prepends the new entry and
truncates to the 1000 most recent: the result starts with the new entry,
keeps exactly the first 999 old entries after it, and never exceeds 1000
entries. -/
theorem history_cap_1000 {α : Type} (a : α) (h : List α) :
    postHistory a h = a :: h.take 999
    ∧ (postHistory a h).head? = some a
    ∧ (postHistory a h).length = min 1000 (h.length + 1)
    ∧ (postHistory a h).length ≤ 1000 := by
  have h1 : postHistory a h = a :: h.take 999 := by
    rw [postHistory, show (1000 : Nat) = 999 + 1 from rfl, List.take_succ_cons]
  refine ⟨h1, by rw [h1]; rfl, ?_, ?_⟩
  · rw [postHistory, List.length_take, List.length_cons]
  · rw [postHistory, List.length_take]
    omega

/-! ## C6: the apply-time guard -/

theorem lookupLast_id {flat : List TreeItem} {x : String} {e : TreeItem}
    (h : lookupLast flat x = some e) : e.id = x := by
  rw [lookupLast] at h
  have hmem : e ∈ flat.filter (fun f => f.id == x) := by
    cases hfl : (flat.filter (fun f => f.id == x)).getLast? with
    | none => rw [hfl] at h; cases h
    | some e' =>
        rw [hfl] at h
        cases h
        exact List.mem_of_mem_getLast? hfl
  have := List.of_mem_filter hmem
  exact beq_iff_eq.mp this

theorem lookupLast_mem {flat : List TreeItem} {x : String} {e : TreeItem}
    (h : lookupLast flat x = some e) : e ∈ flat := by
  rw [lookupLast] at h
  have hmem : e ∈ flat.filter (fun f => f.id == x) := by
    cases hfl : (flat.filter (fun f => f.id == x)).getLast? with
    | none => rw [hfl] at h; cases h
    | some e' =>
        rw [hfl] at h
        cases h
        exact List.mem_of_mem_getLast? hfl
  exact List.mem_of_mem_filter hmem

def exC6 : TreeList := TreeList.ofList [TreeItem.mk "a" "A" none
  (TreeList.ofList [TreeItem.mk "b" "B" (some "a")
    (TreeList.ofList [TreeItem.mk "c" "C" (some "b") TreeList.nil none]) none]) none]

/-- C6 counterexample: the target "c" lies inside the source "b"'s subtree
(the claim's first re-validation failure condition), yet the Move is *not*
aborted and the returned forest differs from the input — `isDescendant`
only finds root-level sources (`items.find` on the top level), so the
nested source "b" slips past the child guard, and the resulting
parent-reference cycle makes both "b" and "c" vanish from the rebuilt
forest. -/
theorem move_guard_not_atomic_cex :
    ("c" ∈ subtreeIds exC6 "b")
    ∧ handleDragEnd exC6 "b" ⟨MoveType.child, "c"⟩ ≠ exC6 := by
  constructor
  · decide
  · decide

/-- C6 amended: only `child`-type Moves are re-validated, and the check
that does run (root-level-source descendant test, target-depth test) does
abort with the forest returned exactly unchanged when it fires;
`before`/`after`/`root` Moves and child Moves whose source is nested are
applied without re-validation. -/
theorem child_guard_abort_noop (items : TreeList) (activeId : String) (pos : DragIntention)
    (hchild : pos.type = MoveType.child)
    (hfail : isDescendant items activeId pos.id = true
      ∨ MAX_DEPTH - 1 ≤ getDepth items pos.id) :
    handleDragEnd items activeId pos = items := by
  rw [handleDragEnd]
  cases hsrc : lookupLast (flattenTree items none) activeId with
  | none => rfl
  | some src =>
    cases htgt : lookupLast (flattenTree items none) pos.id with
    | none => rfl
    | some tgt =>
      have htgtid : tgt.id = pos.id := lookupLast_id htgt
      dsimp only
      by_cases hid : src.id = tgt.id
      · rw [if_pos hid]
      · rw [if_neg hid, if_pos ⟨hchild, by rwa [htgtid]⟩]

def exC6w : TreeList := TreeList.ofList [TreeItem.mk "s" "S" none
  (TreeList.ofList [TreeItem.mk "t" "T" (some "s") TreeList.nil none]) none]

/-- Witness for the amended C6: a child Move of the root "s" onto its own
child "t" is caught by the guard and returns the forest unchanged. -/
theorem child_guard_abort_noop_witness :
    ((DragIntention.mk MoveType.child "t").type = MoveType.child
      ∧ isDescendant exC6w "s" "t" = true)
    ∧ handleDragEnd exC6w "s" ⟨MoveType.child, "t"⟩ = exC6w :=
  ⟨⟨rfl, by decide⟩,
    child_guard_abort_noop exC6w "s" ⟨MoveType.child, "t"⟩ rfl (Or.inl (by decide))⟩

/-! ## C9: the frame property of an accepted Move -/

/-- C9. An accepted Move (both lookups succeed, source ≠ target, the child
guard does not fire) rebuilds from a flat list in which: every entry other
than the source is exactly as before and in the same relative order; the
source occurs exactly once; and the source entry carries the original
name, children and metadata, with only `parentId` (and its list position)
changed to the computed values. -/
theorem move_frame_property (items : TreeList) (activeId : String) (pos : DragIntention)
    (src tgt : TreeItem)
    (hsrc : lookupLast (flattenTree items none) activeId = some src)
    (htgt : lookupLast (flattenTree items none) pos.id = some tgt)
    (hne : src.id ≠ tgt.id)
    (hguard : ¬(pos.type = MoveType.child ∧
      (isDescendant items activeId tgt.id = true ∨ MAX_DEPTH - 1 ≤ getDepth items tgt.id)))
    (newFlat : List TreeItem)
    (hnf : newFlat = (flattenTree items none).filter (fun f => f.id != src.id))
    (p : Nat × Option String) (hp : p = moveParams newFlat tgt pos.type) :
    handleDragEnd items activeId pos = buildTree (spliceIn newFlat p.1 (src.setParent p.2))
    ∧ (spliceIn newFlat p.1 (src.setParent p.2)).filter (fun f => f.id != src.id)
        = (flattenTree items none).filter (fun f => f.id != src.id)
    ∧ ((spliceIn newFlat p.1 (src.setParent p.2)).filter (fun f => f.id == src.id)).length = 1
    ∧ ∀ f ∈ spliceIn newFlat p.1 (src.setParent p.2), f.id = src.id →
        f.name = src.name ∧ f.children = src.children ∧ f.metadata = src.metadata
          ∧ f.parentId = p.2 := by
  subst hnf
  subst hp
  have hmemNF : ∀ f ∈ (flattenTree items none).filter (fun f => f.id != src.id),
      (f.id == src.id) = false := by
    intro f hf
    have := List.of_mem_filter hf
    simpa using this
  have haid : ((src.setParent
      (moveParams ((flattenTree items none).filter (fun f => f.id != src.id)) tgt pos.type).2).id
        != src.id) = false := by
    rw [TreeItem.setParent_id]
    simp
  refine ⟨?_, ?_, ?_, ?_⟩
  · rw [handleDragEnd, hsrc, htgt]
    dsimp only
    rw [if_neg hne, if_neg hguard]
  · rw [spliceIn, List.filter_append, List.filter_cons, haid]
    simp only [Bool.false_eq_true, if_false]
    rw [← List.filter_append, List.take_append_drop]
    apply List.filter_eq_self.mpr
    intro f hf
    have := List.of_mem_filter hf
    simpa using this
  · rw [spliceIn, List.filter_append, List.filter_cons]
    have hbt : ((src.setParent
        (moveParams ((flattenTree items none).filter (fun f => f.id != src.id)) tgt pos.type).2).id
          == src.id) = true := by
      rw [TreeItem.setParent_id]
      simp
    rw [hbt]
    have h1 : (List.take (moveParams ((flattenTree items none).filter
        (fun f => f.id != src.id)) tgt pos.type).1
        ((flattenTree items none).filter (fun f => f.id != src.id))).filter
          (fun f => f.id == src.id) = [] := by
      apply List.filter_eq_nil_iff.mpr
      intro f hf
      rw [hmemNF f (List.take_subset _ _ hf)]
      simp
    have h2 : (List.drop (moveParams ((flattenTree items none).filter
        (fun f => f.id != src.id)) tgt pos.type).1
        ((flattenTree items none).filter (fun f => f.id != src.id))).filter
          (fun f => f.id == src.id) = [] := by
      apply List.filter_eq_nil_iff.mpr
      intro f hf
      rw [hmemNF f (List.drop_subset _ _ hf)]
      simp
    rw [h1, h2]
    rfl
  · intro f hf hfid
    rw [spliceIn] at hf
    rcases List.mem_append.mp hf with hft | hfd
    · exact absurd hfid (by
        have := hmemNF f (List.take_subset _ _ hft)
        simpa using this)
    · rcases List.mem_cons.mp hfd with rfl | hfd'
      · exact ⟨TreeItem.setParent_name _ _, TreeItem.setParent_children _ _,
          TreeItem.setParent_metadata _ _, TreeItem.setParent_parentId _ _⟩
      · exact absurd hfid (by
          have := hmemNF f (List.drop_subset _ _ hfd')
          simpa using this)

def exC9 : TreeList := TreeList.ofList
  [TreeItem.mk "x" "X" none TreeList.nil none,
   TreeItem.mk "y" "Y" none TreeList.nil none]

def srcC9 : TreeItem := TreeItem.mk "y" "Y" none TreeList.nil none

def tgtC9 : TreeItem := TreeItem.mk "x" "X" none TreeList.nil none

def nfC9 : List TreeItem := (flattenTree exC9 none).filter (fun f => f.id != srcC9.id)

def pC9 : Nat × Option String := moveParams nfC9 tgtC9 MoveType.before

/-- Witness for C9 at a concrete accepted `before` Move. -/
theorem move_frame_property_witness :
    (lookupLast (flattenTree exC9 none) "y" = some srcC9
      ∧ lookupLast (flattenTree exC9 none) "x" = some tgtC9
      ∧ srcC9.id ≠ tgtC9.id)
    ∧ handleDragEnd exC9 "y" ⟨MoveType.before, "x"⟩
        = buildTree (spliceIn nfC9 pC9.1 (srcC9.setParent pC9.2))
    ∧ (spliceIn nfC9 pC9.1 (srcC9.setParent pC9.2)).filter (fun f => f.id != srcC9.id)
        = (flattenTree exC9 none).filter (fun f => f.id != srcC9.id)
    ∧ ((spliceIn nfC9 pC9.1 (srcC9.setParent pC9.2)).filter (fun f => f.id == srcC9.id)).length
        = 1 :=
  have hthm := move_frame_property exC9 "y" ⟨MoveType.before, "x"⟩ srcC9 tgtC9
    (by decide) (by decide) (by decide) (by decide) nfC9 rfl pC9 rfl
  ⟨⟨by decide, by decide, by decide⟩, hthm.1, hthm.2.1, hthm.2.2.1⟩

/-! ## C5: the unparent rule of the drag classifier -/

/-- C5 amended: in the `categories` and `product-structure` classifiers the
rule holds as claimed — when `offsetLeft < UNPARENT_THRESHOLD`, the source
has a (truthy) parent, and none of the null cases apply, the classifier
emits `before`/`after` by the `relativeY < 0.5` midpoint rule if the
target is a root and `root` otherwise, regardless of the child rule
(whose branch is never reached). -/
theorem classifier_unparent_rule (items : TreeList) (activeId overId : String)
    (offsetLeft pointerTop overTop overHeight : ℚ) (src tgt : TreeItem)
    (hne : overId ≠ activeId)
    (hsrc : lookupLast (flattenTree items none) activeId = some src)
    (htgt : lookupLast (flattenTree items none) overId = some tgt)
    (hdesc : isDescendant items activeId overId = false)
    (hh : ¬overHeight = 0)
    (hoff : offsetLeft < UNPARENT_THRESHOLD)
    (hpar : truthyId src.parentId = true) :
    handleDragOver items activeId overId offsetLeft pointerTop overTop overHeight
      = if truthyId tgt.parentId then some ⟨MoveType.root, overId⟩
        else if max 0 (min (pointerTop - overTop) overHeight) / overHeight < 1/2
          then some ⟨MoveType.before, overId⟩
          else some ⟨MoveType.after, overId⟩ := by
  rw [handleDragOver, if_neg hne]
  dsimp only
  rw [hsrc, htgt]
  dsimp only
  rw [if_neg (by rw [hdesc]; exact Bool.false_ne_true), if_neg hh,
    if_pos ⟨hoff, hpar⟩]
  cases htp : truthyId tgt.parentId with
  | true => simp
  | false => simp

def exC5 : TreeList := TreeList.ofList
  [TreeItem.mk "p" "P" none (TreeList.ofList
      [TreeItem.mk "c1" "C1" (some "p") TreeList.nil none,
       TreeItem.mk "c2" "C2" (some "p") TreeList.nil none]) none]

/-- Witness for the amended C5: dragging the nested "c1" far left over the
nested "c2" (which is not a root) emits `root`. -/
theorem classifier_unparent_rule_witness :
    (("c2" : String) ≠ "c1"
      ∧ isDescendant exC5 "c1" "c2" = false
      ∧ ¬(40 : ℚ) = 0
      ∧ (-30 : ℚ) < UNPARENT_THRESHOLD)
    ∧ handleDragOver exC5 "c1" "c2" (-30) 0 0 40 = some ⟨MoveType.root, "c2"⟩ := by
  refine ⟨⟨by decide, by decide, by norm_num, ?_⟩, ?_⟩
  · rw [UNPARENT_THRESHOLD]
    norm_num
  · rw [classifier_unparent_rule exC5 "c1" "c2" (-30) 0 0 40
      (TreeItem.mk "c1" "C1" (some "p") TreeList.nil none)
      (TreeItem.mk "c2" "C2" (some "p") TreeList.nil none)
      (by decide) (by decide) (by decide) (by decide) (by norm_num)
      (by rw [UNPARENT_THRESHOLD]; norm_num) (by decide)]
    decide

/-- C5 counterexample: the `category-tree 2.tsx` classifier, also cited by
the claim, does not obey the rule — with `offsetLeft = -30 <
UNPARENT_THRESHOLD`, source "b" having a parent, and the target "a" being
a root, it emits `root` instead of the claimed `before`/`after` (its
unparent branch has no root-target case, and it checks the child rule
first). -/
theorem classifier_unparent_ct2_cex :
    handleDragOverCT2
        (TreeList.ofList [TreeItem.mk "a" "A" none
          (TreeList.ofList [TreeItem.mk "b" "B" (some "a") TreeList.nil none]) none])
        "b" "a" (-30) 0 0 40
      = some ⟨MoveType.root, "a"⟩
    ∧ MoveType.root ≠ MoveType.before ∧ MoveType.root ≠ MoveType.after := by
  refine ⟨?_, by decide, by decide⟩
  decide

/-! ## C8: the rename contract -/

def exC8 : TreeList := TreeList.ofList [TreeItem.mk "a" "A" none
  (TreeList.ofList [TreeItem.mk "b" "B" (some "a") TreeList.nil none]) none]

/-- C8 counterexample: renaming the depth-1 node "b" to a *different* name
returns the forest unchanged — `onRename` looks the id up with
`items.find` on the top-level list only, so a nested node is never found
and keeps its old name (and no `updatedAt` is stamped anywhere in the
forest). -/
theorem rename_nested_noop_cex :
    onRename exC8 "b" "NewB" = exC8
    ∧ (lookupLast (flattenTree (onRename exC8 "b" "NewB") none) "b").map TreeItem.name
        = some "B"
    ∧ ("B" : String) ≠ "NewB" := by
  refine ⟨by decide, by decide, by decide⟩

theorem renameTop_of_none : ∀ (l : List TreeItem) (id nm : String),
    (∀ x ∈ l, x.id ≠ id) → renameTop id nm (TreeList.ofList l) = TreeList.ofList l
  | [], _, _, _ => rfl
  | x :: l, id, nm, h => by
      have hx : (x.id == id) = false := by
        simpa using h x (List.mem_cons_self x l)
      simp only [TreeList.ofList, renameTop, hx, Bool.false_eq_true, if_false]
      rw [renameTop_of_none l id nm (fun y hy => h y (List.mem_cons_of_mem x hy))]

theorem renameTop_self : ∀ (l : List TreeItem) (id nm : String),
    (∀ x ∈ l, x.id = id → x.name = nm) →
    renameTop id nm (TreeList.ofList l) = TreeList.ofList l
  | [], _, _, _ => rfl
  | x :: l, id, nm, h => by
      simp only [TreeList.ofList, renameTop]
      rw [renameTop_self l id nm (fun y hy => h y (List.mem_cons_of_mem x hy))]
      cases hx : (x.id == id) with
      | false => simp
      | true =>
          have hnm : x.name = nm := h x (List.mem_cons_self x l) (beq_iff_eq.mp hx)
          simp only [if_true]
          cases x with
          | mk i n' p cs m =>
            rw [TreeItem.name_mk] at hnm
            subst hnm
            rfl

theorem renameTop_split : ∀ (l1 : List TreeItem) (u : TreeItem) (l2 : List TreeItem)
    (nm : String), (∀ x ∈ l1, x.id ≠ u.id) → (∀ x ∈ l2, x.id ≠ u.id) →
    renameTop u.id nm (TreeList.ofList (l1 ++ u :: l2))
      = TreeList.ofList (l1 ++ u.setName nm :: l2)
  | [], u, l2, nm, _, h2 => by
      simp only [List.nil_append, TreeList.ofList, renameTop, beq_self_eq_true, if_true]
      rw [renameTop_of_none l2 u.id nm h2]
  | x :: l1, u, l2, nm, h1, h2 => by
      have hx : (x.id == u.id) = false := by
        simpa using h1 x (List.mem_cons_self x l1)
      simp only [List.cons_append, TreeList.ofList, renameTop, hx, Bool.false_eq_true,
        if_false, List.append_eq]
      rw [renameTop_split l1 u l2 nm (fun y hy => h1 y (List.mem_cons_of_mem x hy)) h2]

theorem findById_split : ∀ (l1 : List TreeItem) (u : TreeItem) (l2 : List TreeItem),
    (∀ x ∈ l1, x.id ≠ u.id) →
    (TreeList.ofList (l1 ++ u :: l2)).findById u.id = some u
  | [], u, l2, _ => by
      simp [TreeList.ofList, TreeList.findById]
  | x :: l1, u, l2, h1 => by
      have hx : (x.id == u.id) = false := by
        simpa using h1 x (List.mem_cons_self x l1)
      simp only [List.cons_append, TreeList.ofList, TreeList.findById, hx,
        Bool.false_eq_true, if_false, List.append_eq]
      exact findById_split l1 u l2 (fun y hy => h1 y (List.mem_cons_of_mem x hy))

theorem map_rename_self : ∀ (l : List TreeItem) (id nm : String),
    (∀ x ∈ l, x.id = id → x.name = nm) →
    l.map (fun item => if item.id == id then item.setName nm else item) = l
  | [], _, _, _ => rfl
  | x :: l, id, nm, h => by
      rw [List.map_cons,
        map_rename_self l id nm (fun y hy => h y (List.mem_cons_of_mem x hy))]
      cases hx : (x.id == id) with
      | false => simp [hx]
      | true =>
          have hnm : x.name = nm := h x (List.mem_cons_self x l) (beq_iff_eq.mp hx)
          simp only [hx, if_true]
          cases x with
          | mk i n' p cs m =>
            rw [TreeItem.name_mk] at hnm
            subst hnm
            rfl

theorem map_rename_split : ∀ (l1 : List TreeItem) (u : TreeItem) (l2 : List TreeItem)
    (nm : String), (∀ x ∈ l1, x.id ≠ u.id) → (∀ x ∈ l2, x.id ≠ u.id) →
    (l1 ++ u :: l2).map (fun item => if item.id == u.id then item.setName nm else item)
      = l1 ++ u.setName nm :: l2
  | [], u, l2, nm, _, h2 => by
      simp only [List.nil_append, List.map_cons, beq_self_eq_true, if_true]
      rw [map_rename_self l2 u.id nm (fun y hy heq => absurd heq (h2 y hy))]
  | x :: l1, u, l2, nm, h1, h2 => by
      have hx : (x.id == u.id) = false := by
        simpa using h1 x (List.mem_cons_self x l1)
      simp only [List.cons_append, List.map_cons, hx, Bool.false_eq_true, if_false]
      rw [map_rename_split l1 u l2 nm (fun y hy => h1 y (List.mem_cons_of_mem x hy)) h2]

theorem find_split : ∀ (l1 : List TreeItem) (u : TreeItem) (l2 : List TreeItem),
    (∀ x ∈ l1, x.id ≠ u.id) →
    (l1 ++ u :: l2).find? (fun item => item.id == u.id) = some u
  | [], u, l2, _ => by
      simp [List.find?]
  | x :: l1, u, l2, h1 => by
      have hx : (x.id == u.id) = false := by
        simpa using h1 x (List.mem_cons_self x l1)
      simp only [List.cons_append, List.find?, hx]
      exact find_split l1 u l2 (fun y hy => h1 y (List.mem_cons_of_mem x hy))

/-- C8 amended.  In the nested-tree implementations (`categories/page.tsx`,
`product-structure/page.tsx`) `onRename` touches only the top level:
(1) renaming with a name every matching top-level node already carries
returns the forest unchanged (safe no-op); (2) for pairwise-distinct
top-level ids, renaming a top-level node replaces exactly that node's
`name` and leaves every other field and node untouched; (3) an id that is
not top-level — any nested node, or a missing id — is a complete no-op.
In the flat-list `supercontent/@categories/page.tsx` variant,
`handleRename` reaches nodes at every depth: (4) a same-name rename is
again a safe no-op; (5) for pairwise-distinct ids, renaming any node —
nested or root — replaces exactly that node's `name`, all other fields
and nodes unchanged; (6) a missing id is a no-op.  In no implementation
is `metadata.updatedAt` stamped on the renamed node itself (in (2) and
(5) the result keeps the node's original `metadata` verbatim, via
`setName`). -/
theorem rename_contract :
    (∀ (items : TreeList) (id nm : String),
      (∀ x ∈ items.toList, x.id = id → x.name = nm) → onRename items id nm = items)
    ∧ (∀ (l1 l2 : List TreeItem) (u : TreeItem) (nm : String),
      (((l1 ++ u :: l2).map TreeItem.id).Nodup) →
      onRename (TreeList.ofList (l1 ++ u :: l2)) u.id nm
        = TreeList.ofList (l1 ++ u.setName nm :: l2))
    ∧ (∀ (items : TreeList) (id nm : String), items.findById id = none →
      onRename items id nm = items)
    ∧ (∀ (items : List TreeItem) (id nm : String),
      (∀ x ∈ items, x.id = id → x.name = nm) → handleRename items id nm = items)
    ∧ (∀ (l1 l2 : List TreeItem) (u : TreeItem) (nm : String),
      (((l1 ++ u :: l2).map TreeItem.id).Nodup) →
      handleRename (l1 ++ u :: l2) u.id nm = l1 ++ u.setName nm :: l2)
    ∧ (∀ (items : List TreeItem) (id nm : String),
      items.find? (fun item => item.id == id) = none →
      handleRename items id nm = items) := by
  refine ⟨?_, ?_, ?_, ?_, ?_, ?_⟩
  · intro items id nm h
    rw [onRename]
    cases hfind : items.findById id with
    | none => rfl
    | some u =>
        have : renameTop id nm (TreeList.ofList items.toList) = TreeList.ofList items.toList :=
          renameTop_self items.toList id nm h
        rwa [TreeList.ofList_toList] at this
  · intro l1 l2 u nm hnd
    have hmap : (l1 ++ u :: l2).map TreeItem.id
        = l1.map TreeItem.id ++ u.id :: l2.map TreeItem.id := by
      simp
    rw [hmap] at hnd
    have h1 : ∀ x ∈ l1, x.id ≠ u.id := by
      intro x hx heq
      exact (List.disjoint_of_nodup_append hnd)
        (List.mem_map_of_mem TreeItem.id hx) (by simp [heq])
    have h2 : ∀ x ∈ l2, x.id ≠ u.id := by
      intro x hx heq
      have hnd2 : (u.id :: l2.map TreeItem.id).Nodup := hnd.of_append_right
      exact (List.nodup_cons.mp hnd2).1 (heq ▸ List.mem_map_of_mem TreeItem.id hx)
    rw [onRename, findById_split l1 u l2 h1]
    exact renameTop_split l1 u l2 nm h1 h2
  · intro items id nm h
    rw [onRename, h]
  · intro items id nm h
    rw [handleRename]
    cases hfind : items.find? (fun item => item.id == id) with
    | none => rfl
    | some u => exact map_rename_self items id nm h
  · intro l1 l2 u nm hnd
    have hmap : (l1 ++ u :: l2).map TreeItem.id
        = l1.map TreeItem.id ++ u.id :: l2.map TreeItem.id := by
      simp
    rw [hmap] at hnd
    have h1 : ∀ x ∈ l1, x.id ≠ u.id := by
      intro x hx heq
      exact (List.disjoint_of_nodup_append hnd)
        (List.mem_map_of_mem TreeItem.id hx) (by simp [heq])
    have h2 : ∀ x ∈ l2, x.id ≠ u.id := by
      intro x hx heq
      have hnd2 : (u.id :: l2.map TreeItem.id).Nodup := hnd.of_append_right
      exact (List.nodup_cons.mp hnd2).1 (heq ▸ List.mem_map_of_mem TreeItem.id hx)
    rw [handleRename, find_split l1 u l2 h1]
    exact map_rename_split l1 u l2 nm h1 h2
  · intro items id nm h
    rw [handleRename, h]

def uC8 : TreeItem := TreeItem.mk "a" "A" none TreeList.nil none

def wC8 : TreeItem := TreeItem.mk "w" "W" none TreeList.nil none

def rootC8f : TreeItem := TreeItem.mk "p" "P" none TreeList.nil none

def nestedC8f : TreeItem := TreeItem.mk "b" "B" (some "p") TreeList.nil none

/-- Witness for the amended C8: in the nested-tree engine a top-level
rename replaces exactly the name and a nested-id rename is a no-op; in
the flat-list engine renaming the non-root node "b" (parentId "p")
succeeds, keeping its `metadata` untouched. -/
theorem rename_contract_witness :
    ((([] : List TreeItem) ++ uC8 :: [wC8]).map TreeItem.id).Nodup
    ∧ onRename (TreeList.ofList ([] ++ uC8 :: [wC8])) uC8.id "NewA"
        = TreeList.ofList ([] ++ uC8.setName "NewA" :: [wC8])
    ∧ exC8.findById "b" = none
    ∧ onRename exC8 "b" "NewB" = exC8
    ∧ (([rootC8f] ++ nestedC8f :: []).map TreeItem.id).Nodup
    ∧ truthyId nestedC8f.parentId = true
    ∧ handleRename ([rootC8f] ++ nestedC8f :: []) nestedC8f.id "NewB"
        = [rootC8f] ++ nestedC8f.setName "NewB" :: [] :=
  ⟨by decide, rename_contract.2.1 [] [wC8] uC8 "NewA" (by decide),
    by decide, rename_contract.2.2.1 exC8 "b" "NewB" (by decide),
    by decide, by decide,
    rename_contract.2.2.2.2.1 [rootC8f] [] nestedC8f "NewB" (by decide)⟩

/-! ## C7: delete cascades -/

theorem filter_parent_eq_childEntries (flat : List TreeItem) (x : String) (hx : x ≠ "") :
    flat.filter (fun f => f.parentId == some x) = childEntriesOf flat x := by
  rw [childEntriesOf]
  apply List.filter_congr
  intro f _
  cases hfp : (f.parentId == some x) with
  | true =>
      have : f.parentId = some x := beq_iff_eq.mp hfp
      rw [this, truthyId_some]
      simp [hx]
  | false => simp [hfp]

/-- The code's `getAllChildren` closure, seeded at a member entry, computes
exactly the ids of that entry's children forest. -/
theorem collectDesc_eq (F : TreeList) (hnd : (forestIds F).Nodup)
    (hemp : "" ∉ forestIds F) :
    ∀ (fuel : Nat) (e : TreeItem), e ∈ flattenTree F none →
      heightF e.children ≤ fuel →
      collectDescIds (flattenTree F none) fuel e.id = forestIds e.children
  | 0, e, _, hht => by
      rw [heightF_eq_zero (Nat.le_zero.mp hht)]
      rfl
  | fuel + 1, e, hmem, hht => by
      have hxe : e.id ≠ "" := fun h => hemp (h ▸ mem_flatten_id hmem)
      rw [collectDescIds, filter_parent_eq_childEntries _ _ hxe, childEntriesOf,
        filter_children_eq F none e hnd hemp (fun q _ => by simp) hmem,
        List.flatMap_map]
      rw [forestIds_eq_flatMap_toList e.children]
      apply List.flatMap_congr  -- pointwise equality of the flatMap functions
      intro c hc
      have hcmem : flatCopy c (some e.id) ∈ flattenTree F none :=
        mem_flatten_children F none e hmem c hc
      have hcid : (flatCopy c (some e.id)).id = c.id := flatCopy_id c _
      have hcch : (flatCopy c (some e.id)).children = c.children := flatCopy_children c _
      have hcht : heightF c.children ≤ fuel := by
        have h1 := mem_toList_height e.children c hc
        omega
      have := collectDesc_eq F hnd hemp fuel (flatCopy c (some e.id)) hcmem
        (by rw [hcch]; exact hcht)
      rw [hcid] at this ⊢
      rw [this, hcch]

theorem subtreeIds_nil_of_not_mem : ∀ (l : TreeList) (x : String),
    x ∉ forestIds l → subtreeIds l x = []
  | TreeList.nil, _, _ => rfl
  | TreeList.cons (TreeItem.mk i n p cs m) rest, x, hx => by
      have hix : ¬(i = x) := fun h => hx (by simp [forestIds, h])
      rw [subtreeIds, if_neg hix,
        subtreeIds_nil_of_not_mem cs x (fun h => hx (by simp [forestIds, h])),
        subtreeIds_nil_of_not_mem rest x (fun h => hx (by simp [forestIds, h]))]
      rfl

theorem removeSubtree_of_not_mem : ∀ (l : TreeList) (x : String),
    x ∉ forestIds l → removeSubtree l x = l
  | TreeList.nil, _, _ => rfl
  | TreeList.cons (TreeItem.mk i n p cs m) rest, x, hx => by
      have hix : ¬(i = x) := fun h => hx (by simp [forestIds, h])
      rw [removeSubtree, if_neg hix,
        removeSubtree_of_not_mem cs x (fun h => hx (by simp [forestIds, h])),
        removeSubtree_of_not_mem rest x (fun h => hx (by simp [forestIds, h]))]

theorem subtreeIds_subset : ∀ (l : TreeList) (x : String) (y : String),
    y ∈ subtreeIds l x → y ∈ forestIds l
  | TreeList.nil, _, _, h => by simp [subtreeIds] at h
  | TreeList.cons (TreeItem.mk i n p cs m) rest, x, y, h => by
      rw [subtreeIds] at h
      by_cases hix : i = x
      · rw [if_pos hix] at h
        rcases List.mem_append.mp h with h' | h'
        · rcases List.mem_cons.mp h' with rfl | h''
          · simp [forestIds]
          · simp [forestIds, h'']
        · have := subtreeIds_subset rest x y h'
          simp [forestIds, this]
      · rw [if_neg hix] at h
        rcases List.mem_append.mp h with h' | h'
        · have := subtreeIds_subset cs x y h'
          simp [forestIds, this]
        · have := subtreeIds_subset rest x y h'
          simp [forestIds, this]

/-- For a member entry `e` of a duplicate-free walk, the structural subtree
ids of `e.id` are `e.id` followed by the ids of `e`'s children forest. -/
theorem subtreeIds_eq : ∀ (l : TreeList) (pid : Option String) (e : TreeItem),
    (forestIds l).Nodup → e ∈ flattenTree l pid →
    subtreeIds l e.id = e.id :: forestIds e.children
  | TreeList.nil, _, _, _, he => by simp [flattenTree] at he
  | TreeList.cons (TreeItem.mk i n p cs m) rest, pid, e, hnd, he => by
      have hids : forestIds (TreeList.cons (TreeItem.mk i n p cs m) rest)
          = i :: (forestIds cs ++ forestIds rest) := rfl
      rw [hids] at hnd
      have hiA : i ∉ forestIds cs := fun h => (List.nodup_cons.mp hnd).1 (by simp [h])
      have hiB : i ∉ forestIds rest := fun h => (List.nodup_cons.mp hnd).1 (by simp [h])
      have hndA : (forestIds cs).Nodup := ((List.nodup_cons.mp hnd).2).of_append_left
      have hndB : (forestIds rest).Nodup := ((List.nodup_cons.mp hnd).2).of_append_right
      have hdisj : ∀ q, q ∈ forestIds cs → q ∈ forestIds rest → False := fun q h1 h2 =>
        (List.disjoint_of_nodup_append (List.nodup_cons.mp hnd).2) h1 h2
      rcases (by simpa [flattenTree] using he) with rfl | h' | h'
      · rw [subtreeIds, if_pos (by rw [TreeItem.id_mk]),
          subtreeIds_nil_of_not_mem rest _ (by rw [TreeItem.id_mk]; exact hiB)]
        simp [TreeItem.id_mk, TreeItem.children_mk]
      · have hxA : e.id ∈ forestIds cs := mem_flatten_id h'
        have hix : ¬(i = e.id) := fun h => hiA (h ▸ hxA)
        rw [subtreeIds, if_neg hix, subtreeIds_eq cs (some i) e hndA h',
          subtreeIds_nil_of_not_mem rest _ (fun h => hdisj e.id hxA h)]
        simp
      · have hxB : e.id ∈ forestIds rest := mem_flatten_id h'
        have hix : ¬(i = e.id) := fun h => hiB (h ▸ hxB)
        rw [subtreeIds, if_neg hix, subtreeIds_eq rest pid e hndB h',
          subtreeIds_nil_of_not_mem cs _ (fun h => hdisj e.id h hxB)]
        rfl

theorem forestIds_removeSubtree_sublist : ∀ (l : TreeList) (x : String),
    (forestIds (removeSubtree l x)).Sublist (forestIds l)
  | TreeList.nil, _ => List.Sublist.refl _
  | TreeList.cons (TreeItem.mk i n p cs m) rest, x => by
      by_cases hix : i = x
      · rw [removeSubtree, if_pos hix]
        refine (forestIds_removeSubtree_sublist rest x).trans ?_
        rw [forestIds]
        exact (List.sublist_append_right _ _).trans (List.sublist_cons_self _ _)
      · rw [removeSubtree, if_neg hix, forestIds, forestIds]
        exact ((forestIds_removeSubtree_sublist cs x).append
          (forestIds_removeSubtree_sublist rest x)).cons₂ i

theorem forestIds_canonF : ∀ (pid : Option String) (l : TreeList),
    forestIds (canonF pid l) = forestIds l
  | _, TreeList.nil => rfl
  | pid, TreeList.cons (TreeItem.mk i n p cs m) rest => by
      rw [canonF, forestIds, forestIds, forestIds_canonF (some i) cs,
        forestIds_canonF pid rest]

/-- Membership in the forest after a structural subtree removal. -/
theorem mem_forestIds_removeSubtree : ∀ (l : TreeList) (x : String),
    (forestIds l).Nodup → ∀ (y : String),
    (y ∈ forestIds (removeSubtree l x) ↔ (y ∈ forestIds l ∧ y ∉ subtreeIds l x))
  | TreeList.nil, _, _, y => by simp [removeSubtree, forestIds, subtreeIds]
  | TreeList.cons (TreeItem.mk i n p cs m) rest, x, hnd, y => by
      have hids : forestIds (TreeList.cons (TreeItem.mk i n p cs m) rest)
          = i :: (forestIds cs ++ forestIds rest) := rfl
      rw [hids] at hnd
      have hiA : i ∉ forestIds cs := fun h => (List.nodup_cons.mp hnd).1 (by simp [h])
      have hiB : i ∉ forestIds rest := fun h => (List.nodup_cons.mp hnd).1 (by simp [h])
      have hndA : (forestIds cs).Nodup := ((List.nodup_cons.mp hnd).2).of_append_left
      have hndB : (forestIds rest).Nodup := ((List.nodup_cons.mp hnd).2).of_append_right
      have hdisj : ∀ q, q ∈ forestIds cs → q ∈ forestIds rest → False := fun q h1 h2 =>
        (List.disjoint_of_nodup_append (List.nodup_cons.mp hnd).2) h1 h2
      by_cases hix : i = x
      · subst hix
        rw [removeSubtree, if_pos rfl, subtreeIds, if_pos rfl,
          subtreeIds_nil_of_not_mem rest i hiB,
          removeSubtree_of_not_mem rest i hiB, hids]
        simp only [List.append_nil, List.mem_cons, List.mem_append]
        constructor
        · intro hy
          refine ⟨Or.inr (Or.inr hy), ?_⟩
          rintro (rfl | hyc')
          · exact hiB hy
          · exact hdisj y hyc' hy
        · rintro ⟨hy1, hy2⟩
          rcases hy1 with rfl | hy1 | hy1
          · exact absurd (Or.inl rfl) hy2
          · exact absurd (Or.inr hy1) hy2
          · exact hy1
      · rw [removeSubtree, if_neg hix, subtreeIds, if_neg hix, forestIds, hids]
        have ihA := mem_forestIds_removeSubtree cs x hndA y
        have ihB := mem_forestIds_removeSubtree rest x hndB y
        simp only [List.mem_cons, List.mem_append] at ihA ihB ⊢
        constructor
        · rintro (rfl | hy | hy)
          · refine ⟨Or.inl rfl, ?_⟩
            rintro (h | h)
            · exact hiA (subtreeIds_subset cs x y h)
            · exact hiB (subtreeIds_subset rest x y h)
          · obtain ⟨h1, h2⟩ := ihA.mp hy
            refine ⟨Or.inr (Or.inl h1), ?_⟩
            rintro (h | h)
            · exact h2 h
            · exact hdisj y h1 (subtreeIds_subset rest x y h)
          · obtain ⟨h1, h2⟩ := ihB.mp hy
            refine ⟨Or.inr (Or.inr h1), ?_⟩
            rintro (h | h)
            · exact hdisj y (subtreeIds_subset cs x y h) h1
            · exact h2 h
        · rintro ⟨rfl | hy | hy, h2⟩
          · exact Or.inl rfl
          · exact Or.inr (Or.inl (ihA.mpr ⟨hy, fun h => h2 (Or.inl h)⟩))
          · exact Or.inr (Or.inr (ihB.mpr ⟨hy, fun h => h2 (Or.inr h)⟩))

/-! ### `buildTree` only reads ids and parent references

The filtered flat list that `handleDelete` rebuilds differs from the walk
of the structurally-pruned forest only in the (ignored) `children` fields
of its entries, so we show `buildTree` is a congruence for lists that
agree after erasing `children`. -/

theorem TreeItem.setChildren_setChildren (f : TreeItem) (a b : TreeList) :
    (f.setChildren a).setChildren b = f.setChildren b := by
  cases f; rfl

theorem TreeItem.setChildren_id (f : TreeItem) (a : TreeList) :
    (f.setChildren a).id = f.id := by
  cases f; rfl

theorem TreeItem.setChildren_parentId (f : TreeItem) (a : TreeList) :
    (f.setChildren a).parentId = f.parentId := by
  cases f; rfl

theorem shape_eq_id {f1 f2 : TreeItem}
    (h : f1.setChildren TreeList.nil = f2.setChildren TreeList.nil) : f1.id = f2.id := by
  have := congrArg TreeItem.id h
  rwa [TreeItem.setChildren_id, TreeItem.setChildren_id] at this

theorem filter_map_comm (g : TreeItem → TreeItem) (p : TreeItem → Bool)
    (h : ∀ a, p (g a) = p a) : ∀ l : List TreeItem, (l.filter p).map g = (l.map g).filter p
  | [] => rfl
  | a :: l => by
      cases hpa : p a with
      | true => simp [List.filter_cons, h a, hpa, filter_map_comm g p h l]
      | false => simp [List.filter_cons, h a, hpa, filter_map_comm g p h l]

theorem forall2_of_map_eq (g : TreeItem → TreeItem) : ∀ (l1 l2 : List TreeItem),
    l1.map g = l2.map g → List.Forall₂ (fun a b => g a = g b) l1 l2
  | [], [], _ => List.Forall₂.nil
  | [], _ :: _, h => by simp at h
  | _ :: _, [], h => by simp at h
  | a :: l1, b :: l2, h => by
      rw [List.map_cons, List.map_cons] at h
      injection h with h1 h2
      exact List.Forall₂.cons h1 (forall2_of_map_eq g l1 l2 h2)

theorem lookupLast_shape (flat1 flat2 : List TreeItem)
    (hs : flat1.map (fun f => f.setChildren TreeList.nil)
      = flat2.map (fun f => f.setChildren TreeList.nil)) (x : String) :
    Option.map (fun f => f.setChildren TreeList.nil) (lookupLast flat1 x)
      = Option.map (fun f => f.setChildren TreeList.nil) (lookupLast flat2 x) := by
  rw [lookupLast, lookupLast, ← List.getLast?_map, ← List.getLast?_map,
    filter_map_comm _ _ (fun a => by rw [TreeItem.setChildren_id]) flat1,
    filter_map_comm _ _ (fun a => by rw [TreeItem.setChildren_id]) flat2, hs]

theorem mapNode_shape (flat1 flat2 : List TreeItem)
    (hs : flat1.map (fun f => f.setChildren TreeList.nil)
      = flat2.map (fun f => f.setChildren TreeList.nil)) {a b : TreeItem}
    (hab : a.setChildren TreeList.nil = b.setChildren TreeList.nil) :
    (mapNode flat1 a).setChildren TreeList.nil
      = (mapNode flat2 b).setChildren TreeList.nil := by
  have hid : a.id = b.id := shape_eq_id hab
  have hlk := lookupLast_shape flat1 flat2 hs a.id
  rw [mapNode, mapNode, ← hid]
  cases h1 : lookupLast flat1 a.id with
  | none =>
      cases h2 : lookupLast flat2 a.id with
      | none => simpa using hab
      | some v => rw [h1, h2] at hlk; simp at hlk
  | some u =>
      cases h2 : lookupLast flat2 a.id with
      | none => rw [h1, h2] at hlk; simp at hlk
      | some v =>
          rw [h1, h2] at hlk
          simpa using hlk

theorem buildNode_shape_congr (flat1 flat2 : List TreeItem)
    (hs : flat1.map (fun f => f.setChildren TreeList.nil)
      = flat2.map (fun f => f.setChildren TreeList.nil)) :
    ∀ (fuel : Nat) (f1 f2 : TreeItem),
      f1.setChildren TreeList.nil = f2.setChildren TreeList.nil →
      buildNode flat1 fuel f1 = buildNode flat2 fuel f2
  | 0, _, _, h => h
  | fuel + 1, f1, f2, h => by
      have hid : f1.id = f2.id := shape_eq_id h
      rw [buildNode, buildNode, ← hid]
      have hce : (childEntriesOf flat1 f1.id).map (fun f => f.setChildren TreeList.nil)
          = (childEntriesOf flat2 f1.id).map (fun f => f.setChildren TreeList.nil) := by
        rw [childEntriesOf, childEntriesOf,
          filter_map_comm _ _ (fun a => by rw [TreeItem.setChildren_parentId]) flat1,
          filter_map_comm _ _ (fun a => by rw [TreeItem.setChildren_parentId]) flat2, hs]
      have hmap : ∀ (l1 l2 : List TreeItem),
          List.Forall₂ (fun a b => a.setChildren TreeList.nil = b.setChildren TreeList.nil)
            l1 l2 →
          l1.map (fun g => buildNode flat1 fuel (mapNode flat1 g))
            = l2.map (fun g => buildNode flat2 fuel (mapNode flat2 g)) := by
        intro l1 l2 hfa
        induction hfa with
        | nil => rfl
        | @cons a b l1 l2 hab _ ih =>
            rw [List.map_cons, List.map_cons, ih,
              buildNode_shape_congr flat1 flat2 hs fuel _ _
                (mapNode_shape flat1 flat2 hs hab)]
      rw [hmap _ _ (forall2_of_map_eq _ _ _ hce)]
      have := congrArg (fun t => t.setChildren (TreeList.ofList
        ((childEntriesOf flat2 f1.id).map
          (fun g => buildNode flat2 fuel (mapNode flat2 g))))) h
      simpa [TreeItem.setChildren_setChildren] using this

theorem buildTree_shape_congr (flat1 flat2 : List TreeItem)
    (hs : flat1.map (fun f => f.setChildren TreeList.nil)
      = flat2.map (fun f => f.setChildren TreeList.nil)) :
    buildTree flat1 = buildTree flat2 := by
  have hlen : flat1.length = flat2.length := by
    have := congrArg List.length hs
    simpa using this
  rw [buildTree, buildTree, ← hlen]
  congr 1
  have hrf : (flat1.filter (fun f => !truthyId f.parentId)).map
        (fun f => f.setChildren TreeList.nil)
      = (flat2.filter (fun f => !truthyId f.parentId)).map
        (fun f => f.setChildren TreeList.nil) := by
    rw [filter_map_comm _ _ (fun a => by rw [TreeItem.setChildren_parentId]) flat1,
      filter_map_comm _ _ (fun a => by rw [TreeItem.setChildren_parentId]) flat2, hs]
  have hmap : ∀ (l1 l2 : List TreeItem),
      List.Forall₂ (fun a b => a.setChildren TreeList.nil = b.setChildren TreeList.nil)
        l1 l2 →
      l1.map (fun g => buildNode flat1 flat1.length (mapNode flat1 g))
        = l2.map (fun g => buildNode flat2 flat1.length (mapNode flat2 g)) := by
    intro l1 l2 hfa
    induction hfa with
    | nil => rfl
    | @cons a b l1 l2 hab _ ih =>
        rw [List.map_cons, List.map_cons, ih,
          buildNode_shape_congr flat1 flat2 hs flat1.length _ _
            (mapNode_shape flat1 flat2 hs hab)]
  exact hmap _ _ (forall2_of_map_eq _ _ _ hrf)

theorem contains_true_iff (S : List String) (y : String) :
    (S.contains y = true) ↔ y ∈ S :=
  List.elem_iff

/-- Filtering the subtree ids out of a forest walk yields the walk of the
structurally pruned forest, up to the `children` fields that `buildTree`
ignores. -/
theorem flatten_remove_shape : ∀ (l : TreeList) (pid : Option String) (x : String),
    (forestIds l).Nodup →
    ((flattenTree l pid).filter
        (fun f => !((subtreeIds l x).contains f.id))).map
      (fun f => f.setChildren TreeList.nil)
    = (flattenTree (removeSubtree l x) pid).map (fun f => f.setChildren TreeList.nil)
  | TreeList.nil, _, _, _ => rfl
  | TreeList.cons (TreeItem.mk i n p cs m) rest, pid, x, hnd => by
      have hids : forestIds (TreeList.cons (TreeItem.mk i n p cs m) rest)
          = i :: (forestIds cs ++ forestIds rest) := rfl
      rw [hids] at hnd
      have hiA : i ∉ forestIds cs := fun h => (List.nodup_cons.mp hnd).1 (by simp [h])
      have hiB : i ∉ forestIds rest := fun h => (List.nodup_cons.mp hnd).1 (by simp [h])
      have hndA : (forestIds cs).Nodup := ((List.nodup_cons.mp hnd).2).of_append_left
      have hndB : (forestIds rest).Nodup := ((List.nodup_cons.mp hnd).2).of_append_right
      have hdisj : ∀ q, q ∈ forestIds cs → q ∈ forestIds rest → False := fun q h1 h2 =>
        (List.disjoint_of_nodup_append (List.nodup_cons.mp hnd).2) h1 h2
      by_cases hix : i = x
      · subst hix
        have hS : subtreeIds (TreeList.cons (TreeItem.mk i n p cs m) rest) i
            = i :: forestIds cs := by
          rw [subtreeIds, if_pos rfl, subtreeIds_nil_of_not_mem rest i hiB,
            List.append_nil]
        have hrm : removeSubtree (TreeList.cons (TreeItem.mk i n p cs m) rest) i
            = rest := by
          rw [removeSubtree, if_pos rfl, removeSubtree_of_not_mem rest i hiB]
        rw [hS, hrm, flattenTree, List.filter_cons]
        have hPhead : (!((i :: forestIds cs).contains (TreeItem.mk i n pid cs m).id))
            = false := by
          rw [TreeItem.id_mk]
          simp [contains_true_iff]
        rw [hPhead]
        simp only [Bool.false_eq_true, if_false, List.filter_append]
        have h1 : (flattenTree cs (some i)).filter
            (fun f => !((i :: forestIds cs).contains f.id)) = [] := by
          apply List.filter_eq_nil_iff.mpr
          intro f hf hP
          have hfid : f.id ∈ forestIds cs := mem_flatten_id hf
          rw [Bool.not_eq_true', ← Bool.not_eq_true] at hP
          exact hP (by simp [contains_true_iff, hfid])
        have h2 : (flattenTree rest pid).filter
            (fun f => !((i :: forestIds cs).contains f.id)) = flattenTree rest pid := by
          apply List.filter_eq_self.mpr
          intro f hf
          have hfid : f.id ∈ forestIds rest := mem_flatten_id hf
          have : f.id ∉ i :: forestIds cs := by
            intro hc
            rcases List.mem_cons.mp hc with heq | hc'
            · exact hiB (heq ▸ hfid)
            · exact hdisj f.id hc' hfid
          simpa [contains_true_iff] using this
        rw [h1, h2, List.nil_append]
      · have hS : subtreeIds (TreeList.cons (TreeItem.mk i n p cs m) rest) x
            = subtreeIds cs x ++ subtreeIds rest x := by
          rw [subtreeIds, if_neg hix]
        have hinS : i ∉ subtreeIds cs x ++ subtreeIds rest x := by
          intro hc
          rcases List.mem_append.mp hc with h' | h'
          · exact hiA (subtreeIds_subset cs x i h')
          · exact hiB (subtreeIds_subset rest x i h')
        rw [hS, removeSubtree, if_neg hix, flattenTree, flattenTree, List.filter_cons]
        have hPhead : (!((subtreeIds cs x ++ subtreeIds rest x).contains
            (TreeItem.mk i n pid cs m).id)) = true := by
          rw [TreeItem.id_mk]
          simpa [contains_true_iff] using hinS
        rw [hPhead]
        simp only [if_true, List.map_cons, List.filter_append, List.map_append]
        have hcong1 : (flattenTree cs (some i)).filter
            (fun f => !((subtreeIds cs x ++ subtreeIds rest x).contains f.id))
            = (flattenTree cs (some i)).filter
              (fun f => !((subtreeIds cs x).contains f.id)) := by
          apply List.filter_congr
          intro f hf
          have hfid : f.id ∈ forestIds cs := mem_flatten_id hf
          have hnr : f.id ∉ subtreeIds rest x := fun h =>
            hdisj f.id hfid (subtreeIds_subset rest x f.id h)
          cases hc : (subtreeIds cs x).contains f.id with
          | true =>
              have : f.id ∈ subtreeIds cs x ++ subtreeIds rest x :=
                List.mem_append.mpr (Or.inl ((contains_true_iff _ _).mp hc))
              simp [contains_true_iff, this, hc]
          | false =>
              have : f.id ∉ subtreeIds cs x ++ subtreeIds rest x := by
                intro hcc
                rcases List.mem_append.mp hcc with h' | h'
                · rw [(contains_true_iff _ _).mpr h'] at hc
                  cases hc
                · exact hnr h'
              simp [contains_true_iff, this, hc]
        have hcong2 : (flattenTree rest pid).filter
            (fun f => !((subtreeIds cs x ++ subtreeIds rest x).contains f.id))
            = (flattenTree rest pid).filter
              (fun f => !((subtreeIds rest x).contains f.id)) := by
          apply List.filter_congr
          intro f hf
          have hfid : f.id ∈ forestIds rest := mem_flatten_id hf
          have hnc : f.id ∉ subtreeIds cs x := fun h =>
            hdisj f.id (subtreeIds_subset cs x f.id h) hfid
          cases hc : (subtreeIds rest x).contains f.id with
          | true =>
              have : f.id ∈ subtreeIds cs x ++ subtreeIds rest x :=
                List.mem_append.mpr (Or.inr ((contains_true_iff _ _).mp hc))
              simp [contains_true_iff, this, hc]
          | false =>
              have : f.id ∉ subtreeIds cs x ++ subtreeIds rest x := by
                intro hcc
                rcases List.mem_append.mp hcc with h' | h'
                · exact hnc h'
                · rw [(contains_true_iff _ _).mpr h'] at hc
                  cases hc
              simp [contains_true_iff, this, hc]
        rw [hcong1, hcong2, flatten_remove_shape cs (some i) x hndA,
          flatten_remove_shape rest pid x hndB]
        rfl

/-- C7. Delete cascades completely: for a well-formed forest (distinct,
nonempty ids) containing `x`, the forest returned by `handleDelete`
contains exactly the ids outside the structural subtree rooted at `x` —
neither `x` nor any node whose (resolved) parent chain led to `x` remains,
and every other node does.  (The code computes that subtree as the
downward closure of the flat list's `parentId` relation, proved equal to
`subtreeIds` here.) -/
theorem delete_cascades_completely (items : TreeList)
    (hnd : (forestIds items).Nodup) (hemp : "" ∉ forestIds items)
    (x : String) (hx : x ∈ forestIds items) (y : String) :
    y ∈ forestIds (handleDelete items x)
      ↔ (y ∈ forestIds items ∧ y ∉ subtreeIds items x) := by
  have hmap : (flattenTree items none).map TreeItem.id = forestIds items :=
    map_id_flatten items none
  have hndmap : ((flattenTree items none).map TreeItem.id).Nodup := by
    rw [hmap]; exact hnd
  have hxmap : x ∈ (flattenTree items none).map TreeItem.id := by
    rw [hmap]; exact hx
  obtain ⟨e, he, heid⟩ := List.mem_map.mp hxmap
  have hlk : lookupLast (flattenTree items none) x = some e := by
    rw [← heid]
    exact lookupLast_self hndmap he
  have hcol : collectDescIds (flattenTree items none) (flattenTree items none).length x
      = forestIds e.children := by
    rw [← heid]
    apply collectDesc_eq items hnd hemp _ e he
    have h1 := mem_flatten_height items none e he
    have h2 := height_le_flatten_len items none
    omega
  have hsub : subtreeIds items x = x :: forestIds e.children := by
    rw [← heid]
    exact subtreeIds_eq items none e hnd he
  rw [handleDelete]
  dsimp only
  rw [hlk]
  dsimp only
  rw [hcol, ← hsub,
    buildTree_shape_congr _ _ (flatten_remove_shape items none x hnd),
    buildTree_flatten_eq_canon _
      (List.Nodup.sublist (forestIds_removeSubtree_sublist items x) hnd)
      (fun h => hemp ((forestIds_removeSubtree_sublist items x).subset h)),
    forestIds_canonF]
  exact mem_forestIds_removeSubtree items x hnd y

def exC7 : TreeList := TreeList.ofList
  [TreeItem.mk "a" "A" none (TreeList.ofList
      [TreeItem.mk "b" "B" (some "a") (TreeList.ofList
        [TreeItem.mk "c" "C" (some "b") TreeList.nil none]) none]) none,
   TreeItem.mk "d" "D" none TreeList.nil none]

/-- Witness for C7: deleting "b" from `[a > b > c, d]` removes "b" and its
descendant "c" and keeps everything else. -/
theorem delete_cascades_completely_witness :
    ((forestIds exC7).Nodup ∧ "" ∉ forestIds exC7 ∧ "b" ∈ forestIds exC7)
    ∧ ("c" ∈ forestIds (handleDelete exC7 "b")
        ↔ ("c" ∈ forestIds exC7 ∧ "c" ∉ subtreeIds exC7 "b")) :=
  ⟨⟨by decide, by decide, by decide⟩,
    delete_cascades_completely exC7 (by decide) (by decide) "b" (by decide) "c"⟩
